import Mathlib

/-
  Verification of the RDFS import engine
  (schema_automator/importers/rdfs_import_engine.py).

  The engine is shallowly embedded: graphs are lists of triples, the
  Python dicts (`metamodel_mappings`, `reverse_metamodel_mappings`,
  per-subject records, the schema's slot/class collections) are
  association lists with Python-dict update semantics (replace keeps the
  key's position, a fresh key is appended at the end), and code paths
  that raise in Python (AttributeError in `_object_to_value`, KeyError on
  `init_dict["rangeIncludes"]`) are modelled by `Option` with `none` for
  the raised exception.  The external collaborators (the LinkML metamodel
  introspection data, the schema-builder's collections and rdflib's
  compact IRI rendering) are parameters or are modelled from the spec
  where noted.
-/

set_option maxRecDepth 4000

namespace SchemaAutomator

/-- An RDF node: IRI reference, literal (its typed value is modelled by its
lexical string), or blank node. -/
inductive Node where
  | uri (s : String)
  | lit (v : String)
  | bnode (b : String)
deriving DecidableEq, Repr

/-- One RDF triple.  Predicates are always IRIs, written as plain strings. -/
structure Triple where
  s : Node
  p : String
  o : Node
deriving DecidableEq, Repr

/-- A parsed graph: the list of its triples (rdflib stores a set; a run of
the engine observes one linearisation of it, which the list fixes). -/
abbrev Graph := List Triple

/-- `str(node)` as used by `iri_to_name`: the IRI text, the literal's
lexical form, or the blank-node id. -/
def nodeStr : Node → String
  | .uri s => s
  | .lit v => v
  | .bnode b => b

/- ----------------------------------------------------------------
   Association lists with Python-dict semantics
   ---------------------------------------------------------------- -/

/-- Dict lookup: first (unique) entry for the key. -/
def alFind {α : Type} (m : List (String × α)) (k : String) : Option α :=
  match m with
  | [] => none
  | (k2, v) :: rest => if k2 = k then some v else alFind rest k

/-- Dict assignment `m[k] = v`: replace in place, else append at the end. -/
def alSet {α : Type} (m : List (String × α)) (k : String) (v : α) :
    List (String × α) :=
  match m with
  | [] => [(k, v)]
  | (k2, v2) :: rest =>
    if k2 = k then (k2, v) :: rest else (k2, v2) :: alSet rest k v

/-- `defaultdict(list)` extension `m[k].extend(vs)`. -/
def alExtend {α : Type} (m : List (String × List α)) (k : String)
    (vs : List α) : List (String × List α) :=
  match m with
  | [] => [(k, vs)]
  | (k2, v2) :: rest =>
    if k2 = k then (k2, v2 ++ vs) :: rest else (k2, v2) :: alExtend rest k vs

/-- `del m[k]`. -/
def alErase {α : Type} (m : List (String × α)) (k : String) :
    List (String × α) :=
  match m with
  | [] => []
  | (k2, v2) :: rest => if k2 = k then rest else (k2, v2) :: alErase rest k

/-- Read with the empty-list default (`m.get(k, [])`, or a `defaultdict`
read). -/
def alGetD {α : Type} (m : List (String × List α)) (k : String) : List α :=
  (alFind m k).getD []

/- ----------------------------------------------------------------
   String utilities
   ---------------------------------------------------------------- -/

/-- Does the string contain the character? -/
def strHas (s : String) (c : Char) : Bool :=
  s.data.contains c

/-- Python `s.split(sep)[-1]` for a one-character separator: everything
after the last occurrence (the whole string if absent). -/
def afterLast (c : Char) (s : String) : String :=
  String.mk ((s.data.reverse.takeWhile (fun x => x != c)).reverse)

/-- Everything up to and including the last occurrence of the character. -/
def upToLast (c : Char) (s : String) : String :=
  String.mk ((s.data.reverse.dropWhile (fun x => x != c)).reverse)

/-- `RdfsImportEngine._as_name`: try the separators `#`, `/`, `:` in that
order; on the first one present return the text after its last
occurrence, otherwise the whole string. -/
def asName (v : String) : String :=
  if strHas v '#' then afterLast '#' v
  else if strHas v '/' then afterLast '/' v
  else if strHas v ':' then afterLast ':' v
  else v

/-- Modelled from the spec: the metamodel collaborator's
`underscore` name normalisation (linkml_runtime formatutils), which is
not part of this repository: spaces become underscores. -/
def underscoreName (s : String) : String :=
  String.mk (s.data.map (fun c => if c = ' ' then '_' else c))

/-- Keep the first occurrence of each element, dropping later repeats
(one deterministic linearisation of Python's `set(...)`). -/
def dedupAux {α : Type} [DecidableEq α] (seen : List α) : List α → List α
  | [] => []
  | x :: xs =>
    if seen.contains x then dedupAux seen xs
    else x :: dedupAux (x :: seen) xs

/-- De-duplicate a list keeping first occurrences. -/
def dedupFirst {α : Type} [DecidableEq α] (l : List α) : List α :=
  dedupAux [] l

/- ----------------------------------------------------------------
   Vocabulary constants (rdflib namespace objects, as plain IRIs)
   ---------------------------------------------------------------- -/

def RDF_type : String := "http://www.w3.org/1999/02/22-rdf-syntax-ns#type"
def RDF_Property : String :=
  "http://www.w3.org/1999/02/22-rdf-syntax-ns#Property"
def RDFS_subClassOf : String :=
  "http://www.w3.org/2000/01/rdf-schema#subClassOf"
def RDFS_Class : String := "http://www.w3.org/2000/01/rdf-schema#Class"
def OWL_Class : String := "http://www.w3.org/2002/07/owl#Class"
def OWL_ObjectProperty : String :=
  "http://www.w3.org/2002/07/owl#ObjectProperty"
def OWL_DatatypeProperty : String :=
  "http://www.w3.org/2002/07/owl#DatatypeProperty"
def OWL_AnnotationProperty : String :=
  "http://www.w3.org/2002/07/owl#AnnotationProperty"
def OWL_sameAs : String := "http://www.w3.org/2002/07/owl#sameAs"
def SKOS_broader : String := "http://www.w3.org/2004/02/skos/core#broader"
def SKOS_Concept : String := "http://www.w3.org/2004/02/skos/core#Concept"
def SDOH_domainIncludes : String := "http://schema.org/domainIncludes"
def SDOS_domainIncludes : String := "https://schema.org/domainIncludes"
def SDOH_rangeIncludes : String := "http://schema.org/rangeIncludes"
def SDOS_rangeIncludes : String := "https://schema.org/rangeIncludes"
def SDOH_sameAs : String := "http://schema.org/sameAs"

/-- `DEFAULT_METAMODEL_MAPPINGS`, in the source's insertion order. -/
def DEFAULT_METAMODEL_MAPPINGS : List (String × List String) :=
  [("is_a", [RDFS_subClassOf, SKOS_broader]),
   ("domain_of", [SDOH_domainIncludes, SDOS_domainIncludes]),
   ("range", [SDOH_rangeIncludes, SDOS_rangeIncludes]),
   ("exact_mappings", [OWL_sameAs, SDOH_sameAs]),
   ("ClassDefinition", [RDFS_Class, OWL_Class, SKOS_Concept]),
   ("SlotDefinition",
    [RDF_Property, OWL_ObjectProperty, OWL_DatatypeProperty,
     OWL_AnnotationProperty])]

/- ----------------------------------------------------------------
   Mapping-table construction (`RdfsImportEngine.__post_init__`)
   ---------------------------------------------------------------- -/

/-- The two mapping directions held by the engine:
`fwd` is `metamodel_mappings` (metamodel name to IRIs) and `rev` is
`reverse_metamodel_mappings` (IRI to metamodel names). -/
structure Mappings where
  fwd : List (String × List String)
  rev : List (String × List String)
deriving DecidableEq, Repr

/-- One tier-1/2 step: `metamodel_mappings[k].extend(vs)` and, for each
`v` in `vs`, `reverse_metamodel_mappings[v].append(k)`. -/
def extendBoth (m : Mappings) (k : String) (vs : List String) : Mappings :=
  { fwd := alExtend m.fwd k vs,
    rev := vs.foldl (fun r v => alExtend r v [k]) m.rev }

/-- Tiers 1 and 2: fold the built-in defaults, then the caller-supplied
`initial_metamodel_mappings` (values already coerced to lists), through
`extendBoth`. -/
def buildTier12 (defaults user : List (String × List String)) : Mappings :=
  user.foldl (fun m kv => extendBoth m kv.1 kv.2)
    (defaults.foldl (fun m kv => extendBoth m kv.1 kv.2) ⟨[], []⟩)

/-- One tier-3 step for an introspected element `(name, uris)`:
append `name` to the reverse entry of every `uri`, then
`metamodel_mappings[name] = uris` (assignment, not extension). -/
def applyElem (m : Mappings) (e : String × List String) : Mappings :=
  { fwd := alSet m.fwd e.1 e.2,
    rev := e.2.foldl (fun r v => alExtend r v [e.1]) m.rev }

/-- `__post_init__`'s full table construction.  `elems` is the
introspection data of the external metamodel collaborator: for each
element, its name and its expanded mapping IRIs, in iteration order. -/
def buildMappings (defaults user elems : List (String × List String)) :
    Mappings :=
  elems.foldl applyElem (buildTier12 defaults user)

/- ----------------------------------------------------------------
   The engine state and the per-subject attribute resolver
   ---------------------------------------------------------------- -/

/-- The part of a LinkML metamodel slot definition that the engine
consults: `multivalued` and `range`. -/
structure MetaSlot where
  multivalued : Bool
  range : Option String
deriving DecidableEq, Repr

/-- The engine after `__post_init__`: both mapping directions plus the
data read from the external metamodel collaborator
(`classdef_slots`, `slotdef_slots`, and `metamodel.get_slot`). -/
structure Engine where
  fwd : List (String × List String)
  rev : List (String × List String)
  classdefSlots : List String
  slotdefSlots : List String
  metaSlots : List (String × MetaSlot)
deriving DecidableEq, Repr

/-- Build an engine from the default table, user overrides, and the
introspection data, mirroring `__post_init__`. -/
def mkEngine (user elems : List (String × List String))
    (cd sd : List String) (ms : List (String × MetaSlot)) : Engine :=
  let m := buildMappings DEFAULT_METAMODEL_MAPPINGS user elems
  ⟨m.fwd, m.rev, cd, sd, ms⟩

/-- `_element_from_iri`: the first registered reverse mapping of the IRI,
if any (the Python function falls off the end, returning `None`, when
the entry is absent or empty). -/
def elementFromIri (eng : Engine) (iri : String) : Option String :=
  match alFind eng.rev iri with
  | some (n :: _) => some n
  | _ => none

/-- A value bound in a per-subject record: a scalar (string-valued), a
Python bool, a list, or the `any_of` list (each entry standing for one
single-range alternative dict). -/
inductive RVal where
  | scalar (v : String)
  | boolVal (b : Bool)
  | many (vs : List String)
  | anyOf (rs : List String)
deriving DecidableEq, Repr

/-- A per-subject record (`init_dict`), and the dynamic keyword dicts of
the produced definitions. -/
abbrev Record := List (String × RVal)

/-- The `subject_type` argument of `_dict_for_subject`. -/
inductive SubjKind where
  | slot
  | cls
deriving DecidableEq, Repr

/-- `None not in set` is false for every set of strings; a present name is
tested for membership. -/
def optMem (n? : Option String) (l : List String) : Bool :=
  match n? with
  | none => false
  | some n => l.contains n

/-- `_object_to_value`: IRIs stay verbatim when the metaslot's declared
range is URI-like, otherwise they are resolved to a local name; literals
contribute their value; a blank node is passed through (as its id).
`none` models the AttributeError raised when the metaslot is `None` and
the object is an IRI (`metaslot.range` on `None`). -/
def objectToValue (metaslot : Option MetaSlot) (o : Node) : Option String :=
  match o with
  | .uri s =>
    match metaslot with
    | some ms =>
      some (if ms.range = some "uriorcurie" ∨ ms.range = some "uri"
            then s else asName s)
    | none => none
  | .lit v => some v
  | .bnode b => some b

/-- The predicate/object pairs of the triples about a subject, in graph
order (`g.predicate_objects(s)`). -/
def subjectTriples (g : Graph) (s : Node) : List (String × Node) :=
  (g.filter (fun t => t.s == s)).map (fun t => (t.p, t.o))

/-- The `name`-to-`title` rename (the metamodel reserves `name`). -/
def renameField (n0 : String) : String :=
  if n0 = "name" then "title" else n0

/-- `not metaslot or metaslot.multivalued`: accumulate as a list when the
metamodel definition is absent or declared multi-valued. -/
def multiDecision (eng : Engine) (n : String) : Bool :=
  match alFind eng.metaSlots n with
  | none => true
  | some ms => ms.multivalued

/-- The body of `_dict_for_subject`'s loop.  The second component of the
result collects the texts passed to `logging.warning`; `none` models a
raised exception.  The branch order is the source's: skip `rdf:type`,
apply the kind filters (which already reject an unmapped `None` name),
then the dead unmapped-warning branch, the name-to-title rename, value
conversion, and the multivalued-or-absent list accumulation versus
single-valued overwrite. -/
def dictForSubjectAux (eng : Engine) (kind : SubjKind) :
    List (String × Node) → Record → List String →
    Option (Record × List String)
  | [], d, w => some (d, w)
  | (pp, obj) :: rest, d, w =>
    if pp = RDF_type then dictForSubjectAux eng kind rest d w
    else if kind == SubjKind.cls &&
        !optMem (elementFromIri eng pp) eng.classdefSlots then
      dictForSubjectAux eng kind rest d w
    else if kind == SubjKind.slot &&
        !optMem (elementFromIri eng pp) eng.slotdefSlots then
      dictForSubjectAux eng kind rest d w
    else
      match elementFromIri eng pp with
      | none =>
        dictForSubjectAux eng kind rest d (w ++ ["Not mapping " ++ pp])
      | some n0 =>
        match objectToValue (alFind eng.metaSlots (renameField n0)) obj with
        | none => none
        | some v =>
          if multiDecision eng (renameField n0) then
            match alFind d (underscoreName (renameField n0)) with
            | none =>
              dictForSubjectAux eng kind rest
                (alSet d (underscoreName (renameField n0)) (.many [v])) w
            | some (.many vs) =>
              dictForSubjectAux eng kind rest
                (alSet d (underscoreName (renameField n0))
                  (.many (vs ++ [v]))) w
            | some _ => none
          else
            dictForSubjectAux eng kind rest
              (alSet d (underscoreName (renameField n0)) (.scalar v)) w

/-- `_dict_for_subject`. -/
def dictForSubject (eng : Engine) (g : Graph) (s : Node) (kind : SubjKind) :
    Option (Record × List String) :=
  dictForSubjectAux eng kind (subjectTriples g s) [] []

/-- The metamodel field name a predicate resolves to for a given subject
kind, if the triple survives the type skip and the kind filters (after
the name-to-title rename). -/
def resolvedName (eng : Engine) (kind : SubjKind) (pp : String) :
    Option String :=
  if pp = RDF_type then none
  else if kind == SubjKind.cls &&
      !optMem (elementFromIri eng pp) eng.classdefSlots then none
  else if kind == SubjKind.slot &&
      !optMem (elementFromIri eng pp) eng.slotdefSlots then none
  else
    match elementFromIri eng pp with
    | none => none
    | some n0 => some (renameField n0)

/-- The converted values that the given predicate/object pairs
contribute to record key `k`, in encounter order. -/
def contribVals (eng : Engine) (kind : SubjKind)
    (pos : List (String × Node)) (k : String) : List String :=
  pos.filterMap (fun po =>
    match resolvedName eng kind po.1 with
    | none => none
    | some n =>
      if underscoreName n = k then
        objectToValue (alFind eng.metaSlots n) po.2
      else none)

/-- The scalar binding produced by last-wins overwrite: fold the
contributed values over a prior binding, each one replacing it. -/
def lastScalar (vs : List String) (dflt : Option RVal) : Option RVal :=
  match vs with
  | [] => dflt
  | v :: rest => lastScalar rest (some (.scalar v))

/-- A one-predicate engine whose only field (`m`) is multi-valued. -/
def multiWitEngine : Engine :=
  ⟨[], [("http://example.org/p1", ["m"])], [], ["m"],
   [("m", ⟨true, none⟩)]⟩

/-- One triple contributing to the multi-valued field `m`. -/
def multiWitGraph : Graph :=
  [⟨.uri "s", "http://example.org/p1", .lit "a"⟩]

/-- A one-predicate engine whose only field (`t`) is single-valued. -/
def singleWitEngine : Engine :=
  ⟨[], [("http://example.org/p2", ["t"])], [], ["t"],
   [("t", ⟨false, none⟩)]⟩

/-- Two triples contributing to the single-valued field `t`. -/
def singleWitGraph : Graph :=
  [⟨.uri "s", "http://example.org/p2", .lit "a"⟩,
   ⟨.uri "s", "http://example.org/p2", .lit "b"⟩]

/- ----------------------------------------------------------------
   Compact IRI rendering (the graph collaborator's `n3`)
   ---------------------------------------------------------------- -/

/-- Modelled from the spec: the graph collaborator's split of an IRI into
a namespace part (up to and including the last `#` or `/`) and a local
part, as used by its compact-form rendering. -/
def splitIri (u : String) : Option (String × String) :=
  if strHas u '#' then some (upToLast '#' u, afterLast '#' u)
  else if strHas u '/' then some (upToLast '/' u, afterLast '/' u)
  else none

/-- The first declared prefix bound to exactly this namespace. -/
def findPfx (nss : List (String × String)) (ns : String) : Option String :=
  (nss.find? (fun kv => kv.2 == ns)).map (fun kv => kv.1)

/-- Modelled from the spec: the graph collaborator's compact-form
rendering of a node given the active namespace table (`node.n3(nm)`): a
bound namespace yields `pfx:local`, otherwise the IRI is wrapped in
angle brackets; blank nodes render as `_:id` and literals as their
lexical form. -/
def n3Render (nss : List (String × String)) (n : Node) : String :=
  match n with
  | .uri u =>
    match splitIri u with
    | some (ns, loc) =>
      match findPfx nss ns with
      | some p => p ++ ":" ++ loc
      | none => "<" ++ u ++ ">"
    | none => "<" ++ u ++ ">"
  | .bnode b => "_:" ++ b
  | .lit v => v

/- ----------------------------------------------------------------
   Schema model and entity discovery
   ---------------------------------------------------------------- -/

/-- A produced slot definition: its name, the remaining keyword record,
and the canonical URI attached afterwards (absent on the synthesized
identifier slot). -/
structure SlotDef where
  name : String
  dict : Record
  slotUri : Option String
deriving DecidableEq, Repr

/-- A produced class definition. -/
structure ClassDef where
  name : String
  dict : Record
  slots : List String
  classUri : Option String
deriving DecidableEq, Repr

/-- The output schema, restricted to what the engine itself fills in:
name, default namespace marker, and the two keyed collections.
Modelled from the spec: the schema-builder collaborator keys both
collections by definition name, and name collisions silently
overwrite. -/
structure Schema where
  name : String
  defaultPfx : Option String
  slots : List (String × SlotDef)
  classes : List (String × ClassDef)
deriving DecidableEq, Repr

/-- The IRI subjects of `g.subjects(RDF.type, .uri marker)` that pass the
`isinstance(p, URIRef)` check, in graph order. -/
def uriSubjectsWithType (g : Graph) (marker : String) : List String :=
  g.filterMap (fun t =>
    match t.s with
    | .uri s => if t.p = RDF_type ∧ t.o = .uri marker then some s else none
    | _ => none)

/-- The IRI subjects of every triple with the given predicate, in graph
order (again filtered to `URIRef`s). -/
def subjectUrisWithPred (g : Graph) (pred : String) : List String :=
  g.filterMap (fun t =>
    match t.s with
    | .uri s => if t.p = pred then some s else none
    | _ => none)

/-- The subjects (of any node kind) typed with the given marker; the
class pass has no `URIRef` check. -/
def subjectsOfType (g : Graph) (marker : String) : List Node :=
  g.filterMap (fun t =>
    if t.p = RDF_type ∧ t.o = .uri marker then some t.s else none)

/-- Property discovery (`convert`, lines 134-154): the subjects explicitly
typed with a `SlotDefinition` marker, then the subjects of every triple
whose predicate is in `metamodel_mappings["domain_of"]` or in
`metamodel_mappings["rangeIncludes"]` (the key the source actually
reads), de-duplicated. -/
def discoverProps (eng : Engine) (g : Graph) : List String :=
  let explicit := (alGetD eng.fwd "SlotDefinition").foldl
    (fun acc mc => acc ++ uriSubjectsWithType g mc) []
  let metaps := alGetD eng.fwd "domain_of" ++ alGetD eng.fwd "rangeIncludes"
  let implicit := metaps.foldl
    (fun acc mp => acc ++ subjectUrisWithPred g mp) []
  dedupFirst (explicit ++ implicit)

/-- Class discovery (`convert`, lines 175-184): subjects typed with a
`ClassDefinition` marker, then both endpoints of every
`rdfs:subClassOf` triple, de-duplicated. -/
def discoverClasses (eng : Engine) (g : Graph) : List Node :=
  let explicit := (alGetD eng.fwd "ClassDefinition").foldl
    (fun acc mc => acc ++ subjectsOfType g mc) []
  let implicit := g.foldl
    (fun acc t =>
      if t.p = RDFS_subClassOf then acc ++ [t.s, t.o] else acc) []
  dedupFirst (explicit ++ implicit)

/- ----------------------------------------------------------------
   Slot and class assembly
   ---------------------------------------------------------------- -/

/-- Python iteration over a record value, as `for x in init_dict[k]`
iterates it: a list yields its elements, a string its characters, and a
bool raises TypeError (`none`). -/
def iterRVal : RVal → Option (List String)
  | .many vs => some vs
  | .anyOf rs => some rs
  | .scalar s => some (s.data.map (fun c => String.mk [c]))
  | .boolVal _ => none

/-- `cls_slots` under construction: class name to slot names. -/
abbrev ClsSlots := List (String × List String)

/-- Lines 160-163 of `convert`: pull `domain_of` out of the record and
turn its values into class-to-slot-name associations. -/
def extractDomains (sn : String) (cs : ClsSlots) (d0 : Record) :
    Option (ClsSlots × Record) :=
  match alFind d0 "domain_of" with
  | none => some (cs, d0)
  | some v =>
    match iterRVal v with
    | none => none
    | some xs =>
      some (xs.foldl (fun c x => alExtend c x [sn]) cs,
            alErase d0 "domain_of")

/-- Lines 164-169 of `convert`: a list-valued `range` becomes `any_of`
built from `init_dict["rangeIncludes"]` (a KeyError, hence `none`, when
that key is absent); any other shape is left untouched. -/
def fixRange (d1 : Record) : Option Record :=
  match alFind d1 "range" with
  | some (.many _) =>
    match alFind d1 "rangeIncludes" with
    | none => none
    | some rv =>
      match iterRVal rv with
      | none => none
      | some rs => some (alErase (alSet d1 "any_of" (.anyOf rs)) "range")
  | some (.anyOf _) =>
    match alFind d1 "rangeIncludes" with
    | none => none
    | some rv =>
      match iterRVal rv with
      | none => none
      | some rs => some (alErase (alSet d1 "any_of" (.anyOf rs)) "range")
  | _ => some d1

/-- The slot-building loop of `convert` (lines 154-174): per property,
resolve the record, divert `domain_of` into `cls_slots`, apply the range
fix-up, then register the slot (keyed by name, collisions overwriting)
with its rendered canonical URI. -/
def buildSlots (eng : Engine) (g : Graph) (nss : List (String × String)) :
    List String → List (String × SlotDef) → ClsSlots →
    Option (List (String × SlotDef) × ClsSlots)
  | [], slots, cs => some (slots, cs)
  | p :: rest, slots, cs =>
    match dictForSubject eng g (.uri p) .slot with
    | none => none
    | some (d0, _) =>
      match extractDomains (asName p) cs d0 with
      | none => none
      | some (cs1, d1) =>
        match fixRange d1 with
        | none => none
        | some d2 =>
          buildSlots eng g nss rest
            (alSet slots (asName p)
              ⟨asName p, d2, some (n3Render nss (.uri p))⟩) cs1

/-- The class-building loop of `convert` (lines 184-190): per discovered
node, resolve the record, attach the slot names gathered for its name,
and register the class with its rendered canonical URI. -/
def buildClasses (eng : Engine) (g : Graph) (nss : List (String × String))
    (cs : ClsSlots) :
    List Node → List (String × ClassDef) → Option (List (String × ClassDef))
  | [], acc => some acc
  | s :: rest, acc =>
    let cn := asName (nodeStr s)
    match dictForSubject eng g s .cls with
    | none => none
    | some (d, _) =>
      let c : ClassDef := ⟨cn, d, alGetD cs cn, some (n3Render nss s)⟩
      buildClasses eng g nss cs rest (alSet acc cn c)

/- ----------------------------------------------------------------
   Identifier injection and the public entry point
   ---------------------------------------------------------------- -/

/-- Python truthiness of a bound record value (absent keys take the
definition defaults `is_a=None`, `mixins=[]`, both falsy). -/
def truthyOpt : Option RVal → Bool
  | none => false
  | some (.scalar s) => s ≠ ""
  | some (.boolVal b) => b
  | some (.many vs) => !vs.isEmpty
  | some (.anyOf rs) => !rs.isEmpty

/-- `not c.is_a and not c.mixins`. -/
def isRootClass (c : ClassDef) : Bool :=
  !truthyOpt (alFind c.dict "is_a") && !truthyOpt (alFind c.dict "mixins")

/-- The synthesized identifier slot:
`SlotDefinition(identifier, identifier=True, range="uriorcurie")`. -/
def idSlot (idn : String) : SlotDef :=
  ⟨idn, [("identifier", .boolVal true), ("range", .scalar "uriorcurie")],
   none⟩

/-- The per-class identifier step: a class with neither parent nor mixins
gets the identifier appended to its slot list unless already present. -/
def injectClass (idn : String) (c : ClassDef) : ClassDef :=
  if isRootClass c && !c.slots.contains idn then
    { c with slots := c.slots ++ [idn] }
  else c

/-- Lines 191-197 of `convert`: register the identifier slot (replacing
any slot of that name) and run the per-class step. -/
def injectIdentifier (idn? : Option String)
    (slots : List (String × SlotDef)) (classes : List (String × ClassDef)) :
    List (String × SlotDef) × List (String × ClassDef) :=
  match idn? with
  | none => (slots, classes)
  | some idn =>
    (alSet slots idn (idSlot idn),
     classes.map (fun kv => (kv.1, injectClass idn kv.2)))

/-- The name/default-prefix defaulting at the top of `convert`
(lines 114-119): returns the schema name and the final default
prefix. -/
def resolveNames (name0 dp0 : Option String) : String × Option String :=
  let dp1 := if name0 ≠ none ∧ dp0 = none then name0 else dp0
  let n1 := if name0 = none then dp1 else name0
  (n1.getD "example", dp1)

/-- `RdfsImportEngine.convert`, over a parsed graph and its namespace
table: name defaulting, property discovery and slot assembly, class
discovery and assembly, identifier injection.  `none` models a raised
exception. -/
def convert (eng : Engine) (g : Graph) (nss : List (String × String))
    (name0 dp0 idn? : Option String) : Option Schema :=
  match buildSlots eng g nss (discoverProps eng g) [] [] with
  | none => none
  | some (slots, cs) =>
    match buildClasses eng g nss cs (discoverClasses eng g) [] with
    | none => none
    | some classes =>
      let sc := injectIdentifier idn? slots classes
      some ⟨(resolveNames name0 dp0).1, (resolveNames name0 dp0).2,
            sc.1, sc.2⟩

/- ----------------------------------------------------------------
   Reference engines and inputs used by the concrete theorems
   ---------------------------------------------------------------- -/

/-- The engine with no user overrides and empty introspection data. -/
def defaultEngine : Engine := mkEngine [] [] [] [] []

/-- A default-table engine whose metamodel data carries the LinkML facts
the claims touch: `range` and `domain_of` are `slot_definition` slots,
`range` is single-valued with range `element`, `domain_of` is
multi-valued with range `class_definition`. -/
def slotEngine : Engine :=
  mkEngine [] [] [] ["range", "domain_of"]
    [("range", ⟨false, some "element"⟩),
     ("domain_of", ⟨true, some "class_definition"⟩)]

/-- A minimal engine for the attribute resolver: one mapped predicate
(`description`, multi-valued) and one unmapped one. -/
def smallEngine : Engine :=
  ⟨[], [("http://example.org/mapped", ["description"])], [],
   ["description"], [("description", ⟨true, none⟩)]⟩

/-- A subject carrying one unmapped and one mapped triple. -/
def unmappedGraph : Graph :=
  [⟨.uri "s", "http://example.org/mystery", .lit "x"⟩,
   ⟨.uri "s", "http://example.org/mapped", .lit "y"⟩]

/- ----------------------------------------------------------------
   Specification helpers for the tier lemmas
   ---------------------------------------------------------------- -/

/-- The concatenation of the value lists of every entry of `l` with key
`k`, in order: what repeated `extend` calls accumulate under `k`. -/
def concatFor (l : List (String × List String)) (k : String) :
    List String :=
  match l with
  | [] => []
  | (k2, vs) :: rest => (if k2 = k then vs else []) ++ concatFor rest k

/-- One occurrence of `k` appended per occurrence of `v` in `vs`: what
the reverse map gains at `v` from registering `(k, vs)`. -/
def hitsFor (k : String) (vs : List String) (v : String) : List String :=
  vs.filterMap (fun u2 => if u2 = v then some k else none)

/-- What the reverse map gains at `v` from a whole tier. -/
def revNamesFor (l : List (String × List String)) (v : String) :
    List String :=
  match l with
  | [] => []
  | (k, vs) :: rest => hitsFor k vs v ++ revNamesFor rest v

/- ----------------------------------------------------------------
   Concrete inputs used by the claim theorems
   ---------------------------------------------------------------- -/

/-- The C1 failing input: a property IRI used only as the subject of one
`schema:rangeIncludes` triple, never explicitly typed. -/
def rangeOnlyGraph : Graph :=
  [⟨.uri "http://example.org/p", SDOH_rangeIncludes,
    .uri "http://www.w3.org/2001/XMLSchema#string"⟩]

/-- The C2 failing input: an explicitly typed property whose
`schema:rangeIncludes` predicate occurs twice. -/
def multiRangeGraph : Graph :=
  [⟨.uri "http://example.org/p", RDF_type, .uri RDF_Property⟩,
   ⟨.uri "http://example.org/p", SDOH_rangeIncludes,
    .uri "http://example.org/A"⟩,
   ⟨.uri "http://example.org/p", SDOH_rangeIncludes,
    .uri "http://example.org/B"⟩]

/-- A graph whose only triple is a subclass edge between two IRIs that
are never explicitly typed. -/
def subClassGraph : Graph :=
  [⟨.uri "http://e.org/Sub", RDFS_subClassOf, .uri "http://e.org/Sup"⟩]

/-- The C7 counterexample input: two distinct property IRIs whose local
names collide (`x`), both with `schema:domainIncludes` pointing at the
same root class, which is explicitly typed. -/
def dupSlotGraph : Graph :=
  [⟨.uri "http://a.example/x", RDF_type, .uri RDF_Property⟩,
   ⟨.uri "http://b.example/x", RDF_type, .uri RDF_Property⟩,
   ⟨.uri "http://a.example/x", SDOH_domainIncludes,
    .uri "http://example.org/Person"⟩,
   ⟨.uri "http://b.example/x", SDOH_domainIncludes,
    .uri "http://example.org/Person"⟩,
   ⟨.uri "http://example.org/Person", RDF_type, .uri RDFS_Class⟩]

/-- The C9 counterexample input: one explicitly typed class whose IRI is
in a namespace with no declared prefix. -/
def unprefixedClassGraph : Graph :=
  [⟨.uri "http://x.example/A", RDF_type, .uri RDFS_Class⟩]

/-- A class with neither parent nor mixins. -/
def rootWitClass : ClassDef := ⟨"C", [], [], none⟩

/-- A class with a parent (`is_a` bound to a truthy scalar). -/
def nonRootWitClass : ClassDef := ⟨"D", [("is_a", .scalar "E")], [], none⟩

/- ----------------------------------------------------------------
   Association-list lemmas
   ---------------------------------------------------------------- -/

theorem alFind_alSet {α : Type} (m : List (String × α)) (k k2 : String)
    (v : α) :
    alFind (alSet m k v) k2 = if k2 = k then some v else alFind m k2 := by
  induction m with
  | nil =>
    by_cases h : k2 = k
    · subst h; simp [alSet, alFind]
    · have h2 : ¬ k = k2 := fun hh => h hh.symm
      simp [alSet, alFind, h, h2]
  | cons kv rest ih =>
    obtain ⟨k3, v3⟩ := kv
    by_cases h3 : k3 = k
    · subst h3
      by_cases h : k2 = k3
      · subst h; simp [alSet, alFind]
      · have h2 : ¬ k3 = k2 := fun hh => h hh.symm
        simp [alSet, alFind, h, h2]
    · by_cases h : k2 = k3
      · subst h
        simp [alSet, alFind, h3]
      · have h2 : ¬ k3 = k2 := fun hh => h hh.symm
        simp [alSet, alFind, h3, h2, ih]

theorem alFind_alExtend {α : Type} (m : List (String × List α))
    (k k2 : String) (vs : List α) :
    alFind (alExtend m k vs) k2 =
      if k2 = k then some (alGetD m k ++ vs) else alFind m k2 := by
  induction m with
  | nil =>
    by_cases h : k2 = k
    · subst h; simp [alExtend, alFind, alGetD]
    · have h2 : ¬ k = k2 := fun hh => h hh.symm
      simp [alExtend, alFind, h, h2]
  | cons kv rest ih =>
    obtain ⟨k3, v3⟩ := kv
    by_cases h3 : k3 = k
    · subst h3
      by_cases h : k2 = k3
      · subst h; simp [alExtend, alFind, alGetD]
      · have h2 : ¬ k3 = k2 := fun hh => h hh.symm
        simp [alExtend, alFind, h, h2]
    · by_cases h : k2 = k3
      · subst h
        simp [alExtend, alFind, h3]
      · have h2 : ¬ k3 = k2 := fun hh => h hh.symm
        have h4 : alGetD ((k3, v3) :: rest) k = alGetD rest k := by
          simp [alGetD, alFind, h3]
        simp only [alExtend, if_neg h3, alFind, if_neg h2, ih, h4]

theorem alGetD_alExtend {α : Type} (m : List (String × List α))
    (k k2 : String) (vs : List α) :
    alGetD (alExtend m k vs) k2 =
      if k2 = k then alGetD m k ++ vs else alGetD m k2 := by
  by_cases h : k2 = k <;> simp [alGetD, alFind_alExtend, h]

theorem keys_alSet_self {α : Type} (m : List (String × α)) (k : String)
    (v : α) : k ∈ (alSet m k v).map Prod.fst := by
  induction m with
  | nil => simp [alSet]
  | cons kv rest ih =>
    obtain ⟨k3, v3⟩ := kv
    by_cases h3 : k3 = k
    · subst h3; simp [alSet]
    · simp only [alSet, if_neg h3, List.map_cons, List.mem_cons]
      exact Or.inr ih

theorem keys_alSet_mono {α : Type} (m : List (String × α)) (k k2 : String)
    (v : α) (h : k ∈ m.map Prod.fst) :
    k ∈ (alSet m k2 v).map Prod.fst := by
  induction m with
  | nil => simp at h
  | cons kv rest ih =>
    obtain ⟨k3, v3⟩ := kv
    by_cases h3 : k3 = k2
    · subst h3; simpa [alSet] using h
    · simp only [alSet, if_neg h3, List.map_cons, List.mem_cons]
      simp only [List.map_cons, List.mem_cons] at h
      rcases h with h | h
      · exact Or.inl h
      · exact Or.inr (ih h)

/- ----------------------------------------------------------------
   C4 — IRI-to-name resolution
   ---------------------------------------------------------------- -/

/-- C4 (counterexample): the claim "re-applying the resolver to its own
output returns that output unchanged" fails: resolving
`http://example.org#a/b` yields `a/b`, and resolving that again yields
`b`. -/
theorem c4_counterexample :
    asName (asName "http://example.org#a/b")
      ≠ asName "http://example.org#a/b" := by decide

/-- C4 (amended): resolution is total (it is a plain function; when none
of the separators occurs in the input the full string is returned), and
re-application is the identity provided the derived name itself contains
no separator; a derived name still containing a lower-priority separator
may be shortened further by a second application. -/
theorem c4_asName_total_and_conditionally_idempotent (u : String)
    (h1 : strHas (asName u) '#' = false)
    (h2 : strHas (asName u) '/' = false)
    (h3 : strHas (asName u) ':' = false) :
    asName (asName u) = asName u ∧
    (strHas u '#' = false → strHas u '/' = false → strHas u ':' = false →
      asName u = u) := by
  constructor
  · conv_lhs => rw [asName]
    simp [h1, h2, h3]
  · intro g1 g2 g3
    rw [asName]
    simp [g1, g2, g3]

/-- Witness for C4 at the IRI `http://example.org/price`. -/
theorem c4_witness :
    (strHas (asName "http://example.org/price") '#' = false ∧
     strHas (asName "http://example.org/price") '/' = false ∧
     strHas (asName "http://example.org/price") ':' = false) ∧
    asName (asName "http://example.org/price")
      = asName "http://example.org/price" :=
  ⟨by decide,
   (c4_asName_total_and_conditionally_idempotent "http://example.org/price"
     (by decide) (by decide) (by decide)).1⟩

/- ----------------------------------------------------------------
   C10 — schema-name defaulting
   ---------------------------------------------------------------- -/

/-- C10: at the public entry point, a given name with no default prefix
makes the default prefix that name; a missing name is taken from the
default prefix; and with both omitted the schema is named `example`.
The schema returned by `convert` carries exactly the resolved pair. -/
theorem c10_name_defaulting (n0 dp0 : Option String) :
    (∀ v, n0 = some v → dp0 = none → resolveNames n0 dp0 = (v, some v)) ∧
    (n0 = none → ∀ v, dp0 = some v → resolveNames n0 dp0 = (v, some v)) ∧
    (n0 = none → dp0 = none → (resolveNames n0 dp0).1 = "example") ∧
    (∀ eng g nss i sch, convert eng g nss n0 dp0 i = some sch →
      sch.name = (resolveNames n0 dp0).1 ∧
      sch.defaultPfx = (resolveNames n0 dp0).2) := by
  refine ⟨?_, ?_, ?_, ?_⟩
  · intro v hn hd; subst hn; subst hd; simp [resolveNames]
  · intro hn v hd; subst hn; subst hd; simp [resolveNames]
  · intro hn hd; subst hn; subst hd; simp [resolveNames]
  · intro eng g nss i sch h
    unfold convert at h
    split at h
    · exact absurd h (by simp)
    · split at h
      · exact absurd h (by simp)
      · simp only [Option.some.injEq] at h
        subst h
        exact ⟨rfl, rfl⟩

/-- Witness for C10: the three defaulting cases at concrete inputs, and
the schema produced from the empty graph with everything omitted. -/
theorem c10_witness :
    resolveNames (some "n") none = ("n", some "n") ∧
    resolveNames none (some "d") = ("d", some "d") ∧
    (resolveNames none none).1 = "example" ∧
    (Schema.mk "example" none [] []).name = (resolveNames none none).1 :=
  ⟨(c10_name_defaulting (some "n") none).1 "n" rfl rfl,
   (c10_name_defaulting none (some "d")).2.1 rfl "d" rfl,
   (c10_name_defaulting none none).2.2.1 rfl rfl,
   ((c10_name_defaulting none none).2.2.2 defaultEngine [] [] none
     (Schema.mk "example" none [] []) rfl).1⟩

/- ----------------------------------------------------------------
   C3 — unmapped predicates are dropped, but silently
   ---------------------------------------------------------------- -/

/-- The attribute resolver never emits a warning: the unmapped-name
branch that would log is unreachable, because the kind filters already
reject an unmapped (`none`) name for both subject kinds. -/
theorem dictForSubjectAux_no_warnings (eng : Engine) (kind : SubjKind) :
    ∀ pos d w r ws, dictForSubjectAux eng kind pos d w = some (r, ws) →
      ws = w := by
  intro pos
  induction pos with
  | nil =>
    intro d w r ws h
    simp [dictForSubjectAux] at h
    exact h.2.symm
  | cons po rest ih =>
    intro d w r ws h
    obtain ⟨pp, obj⟩ := po
    rw [dictForSubjectAux] at h
    split at h
    · exact ih _ _ _ _ h
    · split at h
      · exact ih _ _ _ _ h
      · split at h
        · exact ih _ _ _ _ h
        · split at h
          · -- unmapped-name branch: unreachable, the kind filters fired
            exfalso
            cases kind <;> simp_all [optMem]
          · split at h
            · exact absurd h (by simp)
            · split at h
              · split at h <;>
                  first
                  | exact ih _ _ _ _ h
                  | exact absurd h (by simp)
              · exact ih _ _ _ _ h

/-- C3: a triple whose predicate has no reverse mapping is dropped from
the record and processing continues with the remaining triples — but no
warning is ever logged (the resolver's warning branch is unreachable).
The second conjunct evaluates the resolver on a subject with one
unmapped and one mapped triple: the mapped triple contributes, the
unmapped one is gone, the warning list is empty. -/
theorem c3_unmapped_dropped_without_warning :
    (∀ eng g s kind r ws,
      dictForSubject eng g s kind = some (r, ws) → ws = []) ∧
    dictForSubject smallEngine unmappedGraph (.uri "s") .slot
      = some ([("description", RVal.many ["y"])], []) := by
  constructor
  · intro eng g s kind r ws h
    exact dictForSubjectAux_no_warnings eng kind _ _ _ _ _ h
  · rfl

/-- Witness for C3 at the two-triple subject. -/
theorem c3_witness :
    dictForSubject smallEngine unmappedGraph (.uri "s") .slot
      = some ([("description", RVal.many ["y"])], []) ∧
    ([] : List String) = [] :=
  ⟨c3_unmapped_dropped_without_warning.2,
   c3_unmapped_dropped_without_warning.1 smallEngine unmappedGraph
     (.uri "s") .slot [("description", RVal.many ["y"])] []
     c3_unmapped_dropped_without_warning.2⟩

/- ----------------------------------------------------------------
   C5 — three-tier mapping-table construction
   ---------------------------------------------------------------- -/

theorem alGetD_revFold (k : String) (vs : List String) :
    ∀ (r : List (String × List String)) (v : String),
      alGetD (vs.foldl (fun r2 u2 => alExtend r2 u2 [k]) r) v =
        alGetD r v ++ hitsFor k vs v := by
  induction vs with
  | nil => intro r v; simp [hitsFor]
  | cons u rest ih =>
    intro r v
    simp only [List.foldl_cons, ih, hitsFor, List.filterMap_cons]
    by_cases h : u = v
    · subst h
      simp [alGetD_alExtend, hitsFor]
    · have h2 : ¬ v = u := fun hh => h hh.symm
      simp [alGetD_alExtend, h, h2, hitsFor]

theorem foldl_extendBoth_fwd (l : List (String × List String)) :
    ∀ (m : Mappings) (k : String),
      alGetD (l.foldl (fun m2 kv => extendBoth m2 kv.1 kv.2) m).fwd k =
        alGetD m.fwd k ++ concatFor l k := by
  induction l with
  | nil => intro m k; simp [concatFor]
  | cons kv rest ih =>
    intro m k
    obtain ⟨k2, vs⟩ := kv
    rw [List.foldl_cons, ih]
    show alGetD (alExtend m.fwd k2 vs) k ++ concatFor rest k =
      alGetD m.fwd k ++ concatFor ((k2, vs) :: rest) k
    rw [alGetD_alExtend]
    by_cases h : k = k2
    · subst h; simp [concatFor]
    · have h2 : ¬ k2 = k := fun hh => h hh.symm
      simp [concatFor, h, h2]

theorem foldl_extendBoth_rev (l : List (String × List String)) :
    ∀ (m : Mappings) (v : String),
      alGetD (l.foldl (fun m2 kv => extendBoth m2 kv.1 kv.2) m).rev v =
        alGetD m.rev v ++ revNamesFor l v := by
  induction l with
  | nil => intro m v; simp [revNamesFor]
  | cons kv rest ih =>
    intro m v
    obtain ⟨k2, vs⟩ := kv
    rw [List.foldl_cons, ih]
    show alGetD (vs.foldl (fun r2 u2 => alExtend r2 u2 [k2]) m.rev) v ++
        revNamesFor rest v =
      alGetD m.rev v ++ revNamesFor ((k2, vs) :: rest) v
    rw [alGetD_revFold]
    simp [revNamesFor, List.append_assoc]

theorem foldl_applyElem_rev (e : List (String × List String)) :
    ∀ (m : Mappings) (v : String),
      alGetD (e.foldl applyElem m).rev v =
        alGetD m.rev v ++ revNamesFor e v := by
  induction e with
  | nil => intro m v; simp [revNamesFor]
  | cons kv rest ih =>
    intro m v
    obtain ⟨n, us⟩ := kv
    rw [List.foldl_cons, ih]
    show alGetD (us.foldl (fun r2 u2 => alExtend r2 u2 [n]) m.rev) v ++
        revNamesFor rest v =
      alGetD m.rev v ++ revNamesFor ((n, us) :: rest) v
    rw [alGetD_revFold]
    simp [revNamesFor, List.append_assoc]

theorem foldl_applyElem_fwd_absent (e : List (String × List String)) :
    ∀ (m : Mappings) (n : String), n ∉ e.map Prod.fst →
      alFind (e.foldl applyElem m).fwd n = alFind m.fwd n := by
  induction e with
  | nil => intro m n _; rfl
  | cons kv rest ih =>
    intro m n hn
    obtain ⟨n2, us⟩ := kv
    simp only [List.map_cons, List.mem_cons] at hn
    push_neg at hn
    rw [List.foldl_cons, ih _ _ hn.2]
    show alFind (alSet m.fwd n2 us) n = alFind m.fwd n
    rw [alFind_alSet]
    simp [hn.1]

/-- C5: tiers 1 and 2 extend the table in both directions (defaults
first, then the caller's overrides), while the metamodel-introspection
tier replaces the forward entry of every element name it touches with
exactly the introspected IRI list, but only appends to the reverse
entries of the introspected IRIs. -/
theorem c5_mapping_table_tiers (d u e : List (String × List String)) :
    (∀ k, alGetD (buildTier12 d u).fwd k =
      concatFor d k ++ concatFor u k) ∧
    (∀ v, alGetD (buildTier12 d u).rev v =
      revNamesFor d v ++ revNamesFor u v) ∧
    (∀ n us e1 e2, e = e1 ++ (n, us) :: e2 → n ∉ e2.map Prod.fst →
      alFind (buildMappings d u e).fwd n = some us) ∧
    (∀ v, alGetD (buildMappings d u e).rev v =
      alGetD (buildTier12 d u).rev v ++ revNamesFor e v) := by
  refine ⟨?_, ?_, ?_, ?_⟩
  · intro k
    unfold buildTier12
    rw [foldl_extendBoth_fwd, foldl_extendBoth_fwd]
    simp [alGetD, alFind]
  · intro v
    unfold buildTier12
    rw [foldl_extendBoth_rev, foldl_extendBoth_rev]
    simp [alGetD, alFind]
  · intro n us e1 e2 he hn
    subst he
    unfold buildMappings
    rw [List.foldl_append, List.foldl_cons]
    rw [foldl_applyElem_fwd_absent e2 _ n hn]
    show alFind (alSet (List.foldl applyElem (buildTier12 d u) e1).fwd n us)
      n = some us
    rw [alFind_alSet]
    simp
  · intro v
    unfold buildMappings
    rw [foldl_applyElem_rev]

/-- Witness for C5 on a small table in which the user tier extends the
default entry for `a`, and the introspection tier then replaces `a`'s
forward list while appending to the reverse entries. -/
theorem c5_witness :
    alGetD (buildTier12 [("a", ["u1"])] [("a", ["u2"]), ("b", ["u1"])]).fwd
      "a" = ["u1", "u2"] ∧
    alGetD (buildTier12 [("a", ["u1"])] [("a", ["u2"]), ("b", ["u1"])]).rev
      "u1" = ["a", "b"] ∧
    alFind (buildMappings [("a", ["u1"])] [("a", ["u2"]), ("b", ["u1"])]
      [("a", ["u3"])]).fwd "a" = some ["u3"] ∧
    alGetD (buildMappings [("a", ["u1"])] [("a", ["u2"]), ("b", ["u1"])]
      [("a", ["u3"])]).rev "u1" = ["a", "b"] :=
  ⟨((c5_mapping_table_tiers [("a", ["u1"])] [("a", ["u2"]), ("b", ["u1"])]
      [("a", ["u3"])]).1 "a").trans (by decide),
   ((c5_mapping_table_tiers [("a", ["u1"])] [("a", ["u2"]), ("b", ["u1"])]
      [("a", ["u3"])]).2.1 "u1").trans (by decide),
   (c5_mapping_table_tiers [("a", ["u1"])] [("a", ["u2"]), ("b", ["u1"])]
      [("a", ["u3"])]).2.2.1 "a" ["u3"] [] [] rfl (by decide),
   ((c5_mapping_table_tiers [("a", ["u1"])] [("a", ["u2"]), ("b", ["u1"])]
      [("a", ["u3"])]).2.2.2 "u1").trans (by decide)⟩

/- ----------------------------------------------------------------
   C1 — range-implied properties are not discovered
   ---------------------------------------------------------------- -/

theorem foldl_append_emptyf_mem {α : Type} (f : α → List String) :
    ∀ (l : List α), (∀ x ∈ l, f x = []) →
      ∀ acc, l.foldl (fun a x => a ++ f x) acc = acc := by
  intro l
  induction l with
  | nil => intro _ acc; rfl
  | cons x rest ih =>
    intro h acc
    rw [List.foldl_cons, h x (List.mem_cons_self x rest), List.append_nil]
    exact ih (fun y hy => h y (List.mem_cons_of_mem x hy)) acc

theorem uriSubjectsWithType_rangeOnly (mc : String) :
    uriSubjectsWithType rangeOnlyGraph mc = [] := by
  have h : ¬ SDOH_rangeIncludes = RDF_type := by decide
  simp [uriSubjectsWithType, rangeOnlyGraph, h]

theorem subjectUrisWithPred_rangeOnly (mp : String)
    (h : mp ≠ SDOH_rangeIncludes) :
    subjectUrisWithPred rangeOnlyGraph mp = [] := by
  have h2 : ¬ SDOH_rangeIncludes = mp := fun hh => h hh.symm
  simp [subjectUrisWithPred, rangeOnlyGraph, h2]

/-- C1: property discovery misses range-implied subjects.  The implicit
pass reads `metamodel_mappings["rangeIncludes"]` — a key that no tier of
the construction ever writes (the table's key is `"range"`) — so a
property that only occurs as the subject of a range-mapped triple and is
never explicitly typed is not discovered at all, contradicting the claim
and the source's own comment (`domain or range of a property`).  Stated
for every engine whose table lacks a `rangeIncludes` entry and whose
`domain_of` marker list does not contain `schema:rangeIncludes`; both
hold for the engine as built. -/
theorem c1_range_implied_property_not_discovered (eng : Engine)
    (h1 : alGetD eng.fwd "rangeIncludes" = [])
    (h2 : SDOH_rangeIncludes ∉ alGetD eng.fwd "domain_of") :
    discoverProps eng rangeOnlyGraph = [] := by
  have hexp : (alGetD eng.fwd "SlotDefinition").foldl
      (fun acc mc => acc ++ uriSubjectsWithType rangeOnlyGraph mc) [] = [] :=
    foldl_append_emptyf_mem (fun mc => uriSubjectsWithType rangeOnlyGraph mc)
      (alGetD eng.fwd "SlotDefinition")
      (fun mc _ => uriSubjectsWithType_rangeOnly mc) []
  have himp : (alGetD eng.fwd "domain_of" ++
      alGetD eng.fwd "rangeIncludes").foldl
      (fun acc mp => acc ++ subjectUrisWithPred rangeOnlyGraph mp) [] = [] := by
    rw [h1, List.append_nil]
    exact foldl_append_emptyf_mem
      (fun mp => subjectUrisWithPred rangeOnlyGraph mp)
      (alGetD eng.fwd "domain_of")
      (fun mp hmp =>
        subjectUrisWithPred_rangeOnly mp (fun he => h2 (he ▸ hmp))) []
  show dedupFirst
    ((alGetD eng.fwd "SlotDefinition").foldl
      (fun acc mc => acc ++ uriSubjectsWithType rangeOnlyGraph mc) [] ++
     (alGetD eng.fwd "domain_of" ++ alGetD eng.fwd "rangeIncludes").foldl
      (fun acc mp => acc ++ subjectUrisWithPred rangeOnlyGraph mp) []) = []
  rw [hexp, himp]
  rfl

/-- Witness for C1: in the engine as built from the defaults the
predicate `schema:rangeIncludes` is range-mapped, yet the property is
not discovered. -/
theorem c1_witness :
    alGetD defaultEngine.fwd "range"
      = [SDOH_rangeIncludes, SDOS_rangeIncludes] ∧
    alGetD defaultEngine.fwd "rangeIncludes" = [] ∧
    SDOH_rangeIncludes ∉ alGetD defaultEngine.fwd "domain_of" ∧
    discoverProps defaultEngine rangeOnlyGraph = [] :=
  ⟨by decide, by decide, by decide,
   c1_range_implied_property_not_discovered defaultEngine (by decide)
     (by decide)⟩

/- ----------------------------------------------------------------
   C2 — multiple range values produce a scalar, not any_of
   ---------------------------------------------------------------- -/

/-- C2: a field whose range predicate occurs more than once does not get
a disjunction of ranges.  The metamodel slot `range` is single-valued,
so the record binds a scalar with the last triple winning; the
list-valued branch of lines 164-169 therefore never fires (and if it
did, it would read the nonexistent key `rangeIncludes` and raise a
KeyError).  Evaluated at the failing input: the produced slot carries
the single scalar range of the last triple and no `any_of` entry, and
`convert` does not raise only because the dead branch is skipped. -/
theorem c2_multiple_ranges_give_last_scalar_range :
    dictForSubject slotEngine multiRangeGraph
      (.uri "http://example.org/p") .slot
      = some ([("range", RVal.scalar "B")], []) ∧
    convert slotEngine multiRangeGraph [] (some "ex") none none
      = some ⟨"ex", some "ex",
          [("p", ⟨"p", [("range", RVal.scalar "B")],
            some "<http://example.org/p>"⟩)], []⟩ ∧
    alFind [("range", RVal.scalar "B")] "any_of" = none :=
  ⟨rfl, rfl, rfl⟩

/- ----------------------------------------------------------------
   C6 — subclass endpoints become classes
   ---------------------------------------------------------------- -/

theorem containsIffMem {α : Type} [DecidableEq α] (l : List α) (a : α) :
    l.contains a = true ↔ a ∈ l := by
  induction l with
  | nil => simp
  | cons b bs ih => simp

theorem mem_dedupAux {α : Type} [DecidableEq α] (x : α) :
    ∀ (l seen : List α), x ∈ l → x ∉ seen → x ∈ dedupAux seen l := by
  intro l
  induction l with
  | nil =>
    intro seen h _
    simp at h
  | cons y ys ih =>
    intro seen hx hs
    rw [dedupAux]
    by_cases hxy : x = y
    · subst hxy
      have hy : ¬ seen.contains x = true := fun hc =>
        hs ((containsIffMem seen x).mp hc)
      rw [if_neg hy]
      exact List.mem_cons_self _ _
    · rcases List.mem_cons.mp hx with h | h
      · exact absurd h hxy
      · by_cases hy : seen.contains y = true
        · rw [if_pos hy]
          exact ih seen h hs
        · rw [if_neg hy]
          refine List.mem_cons_of_mem _ (ih (y :: seen) h ?_)
          intro hmem
          rcases List.mem_cons.mp hmem with h2 | h2
          · exact hxy h2
          · exact hs h2

theorem mem_dedupFirst {α : Type} [DecidableEq α] (x : α) (l : List α)
    (h : x ∈ l) : x ∈ dedupFirst l :=
  mem_dedupAux x l [] h (by simp)

theorem mem_subClassFold (x : Node) :
    ∀ (g : Graph) (acc : List Node),
      (x ∈ acc ∨ ∃ t, t ∈ g ∧ t.p = RDFS_subClassOf ∧
        (x = t.s ∨ x = t.o)) →
      x ∈ g.foldl (fun a t =>
        if t.p = RDFS_subClassOf then a ++ [t.s, t.o] else a) acc := by
  intro g
  induction g with
  | nil =>
    intro acc h
    rcases h with h | ⟨t, ht, _⟩
    · exact h
    · simp at ht
  | cons t g2 ih =>
    intro acc h
    rw [List.foldl_cons]
    apply ih
    rcases h with h | ⟨t2, ht2, hp, hxo⟩
    · left
      by_cases hp : t.p = RDFS_subClassOf
      · rw [if_pos hp]; exact List.mem_append_left _ h
      · rw [if_neg hp]; exact h
    · rcases List.mem_cons.mp ht2 with h2 | h2
      · subst h2
        left
        rw [if_pos hp]
        rcases hxo with h3 | h3 <;> subst h3 <;> simp
      · right
        exact ⟨t2, h2, hp, hxo⟩

theorem mem_discoverClasses (eng : Engine) (g : Graph) (x : Node)
    (h : ∃ t, t ∈ g ∧ t.p = RDFS_subClassOf ∧ (x = t.s ∨ x = t.o)) :
    x ∈ discoverClasses eng g := by
  show x ∈ dedupFirst
    ((alGetD eng.fwd "ClassDefinition").foldl
      (fun acc mc => acc ++ subjectsOfType g mc) [] ++
     g.foldl (fun acc t =>
       if t.p = RDFS_subClassOf then acc ++ [t.s, t.o] else acc) [])
  exact mem_dedupFirst x _
    (List.mem_append_right _ (mem_subClassFold x g [] (Or.inr h)))

theorem buildClasses_mem (eng : Engine) (g : Graph)
    (nss : List (String × String)) (cs : ClsSlots) (x : Node) :
    ∀ (nodes : List Node) (acc r : List (String × ClassDef)),
      buildClasses eng g nss cs nodes acc = some r →
      (x ∈ nodes ∨ asName (nodeStr x) ∈ acc.map Prod.fst) →
      asName (nodeStr x) ∈ r.map Prod.fst := by
  intro nodes
  induction nodes with
  | nil =>
    intro acc r h hx
    simp [buildClasses] at h
    subst h
    rcases hx with hx | hx
    · simp at hx
    · exact hx
  | cons s rest ih =>
    intro acc r h hx
    rw [buildClasses] at h
    split at h
    · exact absurd h (by simp)
    · rename_i d w heq
      rcases hx with hx | hx
      · rcases List.mem_cons.mp hx with h2 | h2
        · subst h2
          exact ih _ _ h (Or.inr (keys_alSet_self acc _ _))
        · exact ih _ _ h (Or.inl h2)
      · exact ih _ _ h (Or.inr (keys_alSet_mono acc _ _ _ hx))

theorem injectIdentifier_class_keys (idn? : Option String)
    (slots : List (String × SlotDef)) (classes : List (String × ClassDef)) :
    ((injectIdentifier idn? slots classes).2).map Prod.fst
      = classes.map Prod.fst := by
  cases idn? with
  | none => rfl
  | some idn => simp [injectIdentifier]

/-- Inversion of `convert`: a produced schema decomposes into the slot
pass, the class pass, and the identifier injection. -/
theorem convert_inv (eng : Engine) (g : Graph) (nss : List (String × String))
    (n0 dp0 idn? : Option String) (sch : Schema)
    (h : convert eng g nss n0 dp0 idn? = some sch) :
    ∃ slots cs classes,
      buildSlots eng g nss (discoverProps eng g) [] [] = some (slots, cs) ∧
      buildClasses eng g nss cs (discoverClasses eng g) [] = some classes ∧
      sch = ⟨(resolveNames n0 dp0).1, (resolveNames n0 dp0).2,
             (injectIdentifier idn? slots classes).1,
             (injectIdentifier idn? slots classes).2⟩ := by
  unfold convert at h
  split at h
  · exact absurd h (by simp)
  · split at h
    · exact absurd h (by simp)
    · rename_i x1 slots cs hb x2 classes hc
      simp only [Option.some.injEq] at h
      exact ⟨slots, cs, classes, hb, hc, h.symm⟩

/-- C6: an IRI that occurs as an endpoint (subject or object) of an
`rdfs:subClassOf` triple — in particular one that is never the subject
of any explicit class-type triple — yields a class definition under its
resolved local name in the output schema's class collection. -/
theorem c6_subclass_endpoints_become_classes (eng : Engine) (g : Graph)
    (nss : List (String × String)) (n0 dp0 idn? : Option String)
    (x s2 o2 : Node) (sch : Schema)
    (hmem : (⟨x, RDFS_subClassOf, o2⟩ : Triple) ∈ g ∨
            (⟨s2, RDFS_subClassOf, x⟩ : Triple) ∈ g)
    (_hnotyped : ∀ mc, (⟨x, RDF_type, mc⟩ : Triple) ∉ g)
    (hconv : convert eng g nss n0 dp0 idn? = some sch) :
    asName (nodeStr x) ∈ sch.classes.map Prod.fst := by
  have hdisc : x ∈ discoverClasses eng g := by
    apply mem_discoverClasses
    rcases hmem with h | h
    · exact ⟨⟨x, RDFS_subClassOf, o2⟩, h, rfl, Or.inl rfl⟩
    · exact ⟨⟨s2, RDFS_subClassOf, x⟩, h, rfl, Or.inr rfl⟩
  obtain ⟨slots, cs, classes, hb, hc, hsch⟩ :=
    convert_inv eng g nss n0 dp0 idn? sch hconv
  subst hsch
  show asName (nodeStr x) ∈
    ((injectIdentifier idn? slots classes).2).map Prod.fst
  rw [injectIdentifier_class_keys]
  exact buildClasses_mem eng g nss cs x _ [] classes hc (Or.inl hdisc)

/-- Witness for C6: the subclass-only graph yields classes `Sub` and
`Sup` although neither IRI is ever explicitly typed. -/
theorem c6_witness :
    convert defaultEngine subClassGraph [] none none none
      = some ⟨"example", none, [],
          [("Sub", ⟨"Sub", [], [], some "<http://e.org/Sub>"⟩),
           ("Sup", ⟨"Sup", [], [], some "<http://e.org/Sup>"⟩)]⟩ ∧
    "Sup" ∈
      ([("Sub", (⟨"Sub", [], [], some "<http://e.org/Sub>"⟩ : ClassDef)),
        ("Sup", ⟨"Sup", [], [], some "<http://e.org/Sup>"⟩)]).map
        Prod.fst :=
  ⟨rfl,
   c6_subclass_endpoints_become_classes defaultEngine subClassGraph []
     none none none (.uri "http://e.org/Sup") (.uri "http://e.org/Sub")
     (.uri "http://e.org/Sub")
     (⟨"example", none, [],
       [("Sub", ⟨"Sub", [], [], some "<http://e.org/Sub>"⟩),
        ("Sup", ⟨"Sup", [], [], some "<http://e.org/Sup>"⟩)]⟩)
     (Or.inr (by simp [subClassGraph]))
     (fun mc hmem => by
       simp only [subClassGraph, List.mem_singleton] at hmem
       have hp : RDF_type = RDFS_subClassOf := congrArg Triple.p hmem
       exact absurd hp (by decide))
     rfl⟩

/- ----------------------------------------------------------------
   C8 — multiplicity of record bindings
   ---------------------------------------------------------------- -/

theorem lastScalar_cons (v : String) (vs : List String)
    (dflt : Option RVal) :
    lastScalar (v :: vs) dflt = lastScalar vs (some (RVal.scalar v)) := rfl

/-- `lastScalar` is the scalar conversion of the last value when one
exists. -/
theorem lastScalar_eq_getLast (vs : List String) :
    ∀ dflt, lastScalar vs dflt =
      match vs.getLast? with
      | none => dflt
      | some x => some (RVal.scalar x) := by
  induction vs with
  | nil => intro dflt; rfl
  | cons v rest ih =>
    intro dflt
    rw [lastScalar_cons, ih]
    cases rest with
    | nil => rfl
    | cons v2 vs2 =>
      rw [List.getLast?_cons_cons]
      rcases hgl : (v2 :: vs2).getLast? with _ | x
      · exact absurd (List.getLast?_eq_none_iff.mp hgl) (by simp)
      · rfl

theorem dictAux_multi (eng : Engine) (kind : SubjKind) (k : String) :
    ∀ pos d w r ws,
      (∀ pp o n, (pp, o) ∈ pos → resolvedName eng kind pp = some n →
        underscoreName n = k → multiDecision eng n = true) →
      dictForSubjectAux eng kind pos d w = some (r, ws) →
      ((alFind d k = none →
        alFind r k = (if contribVals eng kind pos k = [] then none
          else some (RVal.many (contribVals eng kind pos k)))) ∧
       (∀ vs0, alFind d k = some (RVal.many vs0) →
        alFind r k = some (RVal.many (vs0 ++ contribVals eng kind pos k)))) := by
  intro pos
  induction pos with
  | nil =>
    intro d w r ws _ h
    simp only [dictForSubjectAux, Option.some.injEq, Prod.mk.injEq] at h
    obtain ⟨h1, _⟩ := h
    subst h1
    constructor
    · intro hdk
      rw [hdk]
      simp [contribVals]
    · intro vs0 hvs0
      rw [hvs0]
      simp [contribVals]
  | cons po rest ih =>
    intro d w r ws hmono h
    obtain ⟨pp, o⟩ := po
    have hmrest : ∀ pp2 o2 n, (pp2, o2) ∈ rest →
        resolvedName eng kind pp2 = some n → underscoreName n = k →
        multiDecision eng n = true :=
      fun pp2 o2 n hm2 hr2 hu2 =>
        hmono pp2 o2 n (List.mem_cons_of_mem _ hm2) hr2 hu2
    rw [dictForSubjectAux] at h
    by_cases hT : pp = RDF_type
    · rw [if_pos hT] at h
      have hres : resolvedName eng kind pp = none := by
        unfold resolvedName
        rw [if_pos hT]
      have hcv : contribVals eng kind ((pp, o) :: rest) k
          = contribVals eng kind rest k := by
        simp [contribVals, List.filterMap_cons, hres]
      rw [hcv]
      exact ih d w r ws hmrest h
    · rw [if_neg hT] at h
      by_cases hc1 : (kind == SubjKind.cls &&
          !optMem (elementFromIri eng pp) eng.classdefSlots) = true
      · rw [if_pos hc1] at h
        have hres : resolvedName eng kind pp = none := by
          unfold resolvedName
          rw [if_neg hT, if_pos hc1]
        have hcv : contribVals eng kind ((pp, o) :: rest) k
            = contribVals eng kind rest k := by
          simp [contribVals, List.filterMap_cons, hres]
        rw [hcv]
        exact ih d w r ws hmrest h
      · rw [if_neg hc1] at h
        by_cases hc2 : (kind == SubjKind.slot &&
            !optMem (elementFromIri eng pp) eng.slotdefSlots) = true
        · rw [if_pos hc2] at h
          have hres : resolvedName eng kind pp = none := by
            unfold resolvedName
            rw [if_neg hT, if_neg hc1, if_pos hc2]
          have hcv : contribVals eng kind ((pp, o) :: rest) k
              = contribVals eng kind rest k := by
            simp [contribVals, List.filterMap_cons, hres]
          rw [hcv]
          exact ih d w r ws hmrest h
        · rw [if_neg hc2] at h
          rcases hn : elementFromIri eng pp with _ | n0
          · simp only [hn] at h
            have hres : resolvedName eng kind pp = none := by
              unfold resolvedName
              rw [if_neg hT, if_neg hc1, if_neg hc2, hn]
            have hcv : contribVals eng kind ((pp, o) :: rest) k
                = contribVals eng kind rest k := by
              simp [contribVals, List.filterMap_cons, hres]
            rw [hcv]
            exact ih d _ r ws hmrest h
          · simp only [hn] at h
            have hres : resolvedName eng kind pp
                = some (renameField n0) := by
              unfold resolvedName
              rw [if_neg hT, if_neg hc1, if_neg hc2, hn]
            rcases hv : objectToValue (alFind eng.metaSlots (renameField n0))
                o with _ | v
            · simp only [hv] at h
              exact absurd h (by simp)
            · simp only [hv] at h
              by_cases hk : underscoreName (renameField n0) = k
              · have hm := hmono pp o (renameField n0)
                  (List.mem_cons_self _ _) hres hk
                rw [if_pos hm, hk] at h
                have hcv : contribVals eng kind ((pp, o) :: rest) k
                    = v :: contribVals eng kind rest k := by
                  simp [contribVals, List.filterMap_cons, hres, hk, hv]
                rcases hd : alFind d k with _ | rv
                · simp only [hd] at h
                  have ih2 := ih (alSet d k (RVal.many [v])) w r ws hmrest h
                  have hnew : alFind (alSet d k (RVal.many [v])) k
                      = some (RVal.many [v]) := by
                    rw [alFind_alSet]; simp
                  have hval := ih2.2 [v] hnew
                  constructor
                  · intro _
                    rw [hcv, hval]
                    simp
                  · intro vs0 hvs0
                    exact absurd hvs0 (by simp)
                · rcases rv with v2 | b | vs | rs
                  · simp only [hd] at h
                    exact absurd h (by simp)
                  · simp only [hd] at h
                    exact absurd h (by simp)
                  · simp only [hd] at h
                    have ih2 := ih (alSet d k (RVal.many (vs ++ [v]))) w r ws
                      hmrest h
                    have hnew : alFind (alSet d k (RVal.many (vs ++ [v]))) k
                        = some (RVal.many (vs ++ [v])) := by
                      rw [alFind_alSet]; simp
                    have hval := ih2.2 (vs ++ [v]) hnew
                    constructor
                    · intro hdk
                      exact absurd hdk (by simp)
                    · intro vs0 hvs0
                      have hvv : vs = vs0 :=
                        RVal.many.inj (Option.some.inj hvs0)
                      subst hvv
                      rw [hcv, hval]
                      simp [List.append_assoc]
                  · simp only [hd] at h
                    exact absurd h (by simp)
              · have hcv : contribVals eng kind ((pp, o) :: rest) k
                    = contribVals eng kind rest k := by
                  simp [contribVals, List.filterMap_cons, hres, hk]
                have hknot : ¬ k = underscoreName (renameField n0) :=
                  fun hh => hk hh.symm
                have hpres : ∀ val,
                    alFind (alSet d (underscoreName (renameField n0)) val) k
                      = alFind d k := by
                  intro val
                  rw [alFind_alSet]
                  simp [hknot]
                by_cases hm2 : multiDecision eng (renameField n0) = true
                · rw [if_pos hm2] at h
                  rcases hd : alFind d (underscoreName (renameField n0)) with
                    _ | rv
                  · simp only [hd] at h
                    have ih2 := ih _ w r ws hmrest h
                    rw [hcv]
                    exact ⟨fun hdk => ih2.1 (by rw [hpres]; exact hdk),
                           fun vs0 hvs0 =>
                             ih2.2 vs0 (by rw [hpres]; exact hvs0)⟩
                  · rcases rv with v2 | b | vs | rs
                    · simp only [hd] at h
                      exact absurd h (by simp)
                    · simp only [hd] at h
                      exact absurd h (by simp)
                    · simp only [hd] at h
                      have ih2 := ih _ w r ws hmrest h
                      rw [hcv]
                      exact ⟨fun hdk => ih2.1 (by rw [hpres]; exact hdk),
                             fun vs0 hvs0 =>
                               ih2.2 vs0 (by rw [hpres]; exact hvs0)⟩
                    · simp only [hd] at h
                      exact absurd h (by simp)
                · rw [if_neg hm2] at h
                  have ih2 := ih _ w r ws hmrest h
                  rw [hcv]
                  exact ⟨fun hdk => ih2.1 (by rw [hpres]; exact hdk),
                         fun vs0 hvs0 =>
                           ih2.2 vs0 (by rw [hpres]; exact hvs0)⟩

theorem dictAux_single (eng : Engine) (kind : SubjKind) (k : String) :
    ∀ pos d w r ws,
      (∀ pp o n, (pp, o) ∈ pos → resolvedName eng kind pp = some n →
        underscoreName n = k → multiDecision eng n = false) →
      dictForSubjectAux eng kind pos d w = some (r, ws) →
      alFind r k = lastScalar (contribVals eng kind pos k) (alFind d k) := by
  intro pos
  induction pos with
  | nil =>
    intro d w r ws _ h
    simp only [dictForSubjectAux, Option.some.injEq, Prod.mk.injEq] at h
    obtain ⟨h1, _⟩ := h
    subst h1
    simp [contribVals, lastScalar]
  | cons po rest ih =>
    intro d w r ws hmono h
    obtain ⟨pp, o⟩ := po
    have hmrest : ∀ pp2 o2 n, (pp2, o2) ∈ rest →
        resolvedName eng kind pp2 = some n → underscoreName n = k →
        multiDecision eng n = false :=
      fun pp2 o2 n hm2 hr2 hu2 =>
        hmono pp2 o2 n (List.mem_cons_of_mem _ hm2) hr2 hu2
    rw [dictForSubjectAux] at h
    by_cases hT : pp = RDF_type
    · rw [if_pos hT] at h
      have hres : resolvedName eng kind pp = none := by
        unfold resolvedName
        rw [if_pos hT]
      have hcv : contribVals eng kind ((pp, o) :: rest) k
          = contribVals eng kind rest k := by
        simp [contribVals, List.filterMap_cons, hres]
      rw [hcv]
      exact ih d w r ws hmrest h
    · rw [if_neg hT] at h
      by_cases hc1 : (kind == SubjKind.cls &&
          !optMem (elementFromIri eng pp) eng.classdefSlots) = true
      · rw [if_pos hc1] at h
        have hres : resolvedName eng kind pp = none := by
          unfold resolvedName
          rw [if_neg hT, if_pos hc1]
        have hcv : contribVals eng kind ((pp, o) :: rest) k
            = contribVals eng kind rest k := by
          simp [contribVals, List.filterMap_cons, hres]
        rw [hcv]
        exact ih d w r ws hmrest h
      · rw [if_neg hc1] at h
        by_cases hc2 : (kind == SubjKind.slot &&
            !optMem (elementFromIri eng pp) eng.slotdefSlots) = true
        · rw [if_pos hc2] at h
          have hres : resolvedName eng kind pp = none := by
            unfold resolvedName
            rw [if_neg hT, if_neg hc1, if_pos hc2]
          have hcv : contribVals eng kind ((pp, o) :: rest) k
              = contribVals eng kind rest k := by
            simp [contribVals, List.filterMap_cons, hres]
          rw [hcv]
          exact ih d w r ws hmrest h
        · rw [if_neg hc2] at h
          rcases hn : elementFromIri eng pp with _ | n0
          · simp only [hn] at h
            have hres : resolvedName eng kind pp = none := by
              unfold resolvedName
              rw [if_neg hT, if_neg hc1, if_neg hc2, hn]
            have hcv : contribVals eng kind ((pp, o) :: rest) k
                = contribVals eng kind rest k := by
              simp [contribVals, List.filterMap_cons, hres]
            rw [hcv]
            exact ih d _ r ws hmrest h
          · simp only [hn] at h
            have hres : resolvedName eng kind pp
                = some (renameField n0) := by
              unfold resolvedName
              rw [if_neg hT, if_neg hc1, if_neg hc2, hn]
            rcases hv : objectToValue (alFind eng.metaSlots (renameField n0))
                o with _ | v
            · simp only [hv] at h
              exact absurd h (by simp)
            · simp only [hv] at h
              by_cases hk : underscoreName (renameField n0) = k
              · have hm := hmono pp o (renameField n0)
                  (List.mem_cons_self _ _) hres hk
                rw [hm, if_neg Bool.false_ne_true, hk] at h
                have ih2 := ih (alSet d k (RVal.scalar v)) w r ws hmrest h
                have hnew : alFind (alSet d k (RVal.scalar v)) k
                    = some (RVal.scalar v) := by
                  rw [alFind_alSet]; simp
                rw [hnew] at ih2
                have hcv : contribVals eng kind ((pp, o) :: rest) k
                    = v :: contribVals eng kind rest k := by
                  simp [contribVals, List.filterMap_cons, hres, hk, hv]
                rw [hcv, lastScalar_cons]
                exact ih2
              · have hcv : contribVals eng kind ((pp, o) :: rest) k
                    = contribVals eng kind rest k := by
                  simp [contribVals, List.filterMap_cons, hres, hk]
                have hknot : ¬ k = underscoreName (renameField n0) :=
                  fun hh => hk hh.symm
                have hpres : ∀ val,
                    alFind (alSet d (underscoreName (renameField n0)) val) k
                      = alFind d k := by
                  intro val
                  rw [alFind_alSet]
                  simp [hknot]
                by_cases hm2 : multiDecision eng (renameField n0) = true
                · rw [if_pos hm2] at h
                  rcases hd : alFind d (underscoreName (renameField n0)) with
                    _ | rv
                  · simp only [hd] at h
                    have ih2 := ih _ w r ws hmrest h
                    rw [hpres] at ih2
                    rw [hcv]
                    exact ih2
                  · rcases rv with v2 | b | vs | rs
                    · simp only [hd] at h
                      exact absurd h (by simp)
                    · simp only [hd] at h
                      exact absurd h (by simp)
                    · simp only [hd] at h
                      have ih2 := ih _ w r ws hmrest h
                      rw [hpres] at ih2
                      rw [hcv]
                      exact ih2
                    · simp only [hd] at h
                      exact absurd h (by simp)
                · rw [if_neg hm2] at h
                  have ih2 := ih _ w r ws hmrest h
                  rw [hpres] at ih2
                  rw [hcv]
                  exact ih2

/-- C8: in every record the per-subject attribute resolver builds, a key
all of whose contributing triples resolve to a multi-valued or absent
metamodel field is bound to the ordered list of all converted values (a
list even when only one value is present, and absent only when nothing
contributed), while a key all of whose contributing triples resolve to
present single-valued fields is bound to a scalar, the last contributed
value overwriting earlier ones. -/
theorem c8_record_multiplicity (eng : Engine) (g : Graph) (s : Node)
    (kind : SubjKind) (k : String) (r : Record) (ws : List String)
    (h : dictForSubject eng g s kind = some (r, ws)) :
    ((∀ pp o n, (pp, o) ∈ subjectTriples g s →
        resolvedName eng kind pp = some n → underscoreName n = k →
        multiDecision eng n = true) →
      alFind r k =
        (if contribVals eng kind (subjectTriples g s) k = [] then none
         else some (RVal.many (contribVals eng kind (subjectTriples g s) k)))) ∧
    ((∀ pp o n, (pp, o) ∈ subjectTriples g s →
        resolvedName eng kind pp = some n → underscoreName n = k →
        multiDecision eng n = false) →
      alFind r k =
        lastScalar (contribVals eng kind (subjectTriples g s) k) none) :=
  ⟨fun hm =>
    (dictAux_multi eng kind k (subjectTriples g s) [] [] r ws hm h).1 rfl,
   fun hs =>
    dictAux_single eng kind k (subjectTriples g s) [] [] r ws hs h⟩

/-- Witness for C8: a multi-valued field with one triple binds a
one-element list; a single-valued field with two triples binds the last
scalar. -/
theorem c8_witness :
    dictForSubject multiWitEngine multiWitGraph (.uri "s") .slot
      = some ([("m", RVal.many ["a"])], []) ∧
    alFind [("m", RVal.many ["a"])] "m" = some (RVal.many ["a"]) ∧
    dictForSubject singleWitEngine singleWitGraph (.uri "s") .slot
      = some ([("t", RVal.scalar "b")], []) ∧
    alFind [("t", RVal.scalar "b")] "t" = some (RVal.scalar "b") := by
  refine ⟨rfl, ?_, rfl, ?_⟩
  · have h := (c8_record_multiplicity multiWitEngine multiWitGraph (.uri "s")
      .slot "m" [("m", RVal.many ["a"])] [] rfl).1 ?_
    · exact h.trans (by decide)
    · intro pp o n hm hr hu
      have hst : subjectTriples multiWitGraph (.uri "s")
          = [("http://example.org/p1", Node.lit "a")] := rfl
      rw [hst] at hm
      rw [List.mem_singleton] at hm
      have hpp : pp = "http://example.org/p1" := congrArg Prod.fst hm
      subst hpp
      have hcon : resolvedName multiWitEngine SubjKind.slot
          "http://example.org/p1" = some "m" := by decide
      rw [hcon] at hr
      have hn2 : n = "m" := (Option.some.inj hr).symm
      subst hn2
      decide
  · have h := (c8_record_multiplicity singleWitEngine singleWitGraph
      (.uri "s") .slot "t" [("t", RVal.scalar "b")] [] rfl).2 ?_
    · exact h.trans (by decide)
    · intro pp o n hm hr hu
      have hst : subjectTriples singleWitGraph (.uri "s")
          = [("http://example.org/p2", Node.lit "a"),
             ("http://example.org/p2", Node.lit "b")] := rfl
      rw [hst] at hm
      rw [List.mem_cons, List.mem_singleton] at hm
      have hpp : pp = "http://example.org/p2" := by
        rcases hm with hm | hm
        · exact congrArg Prod.fst hm
        · exact congrArg Prod.fst hm
      subst hpp
      have hcon : resolvedName singleWitEngine SubjKind.slot
          "http://example.org/p2" = some "t" := by decide
      rw [hcon] at hr
      have hn2 : n = "t" := (Option.some.inj hr).symm
      subst hn2
      decide

/- ----------------------------------------------------------------
   C7 — identifier injection
   ---------------------------------------------------------------- -/

/-- C7 (counterexample): with identifier `x` requested on a graph where
two distinct property IRIs share the local name `x` and both declare the
same root class as domain, the sole class is a root class and ends with
`x` occurring twice in its slot list, not exactly once. -/
theorem c7_counterexample :
    (convert slotEngine dupSlotGraph [] none none (some "x")).map
      (fun sch => sch.classes.map
        (fun kv => (kv.1, kv.2.slots.count "x", isRootClass kv.2)))
      = some [("Person", 2, true)] := by
  rfl

/-- C7 (amended): the identifier step adds a slot definition with the
identifier flag and a `uriorcurie` range under the requested name; every
class with neither parent nor mixins ends with the name occurring at
least once — exactly once unless duplicate discovered field names
already listed it more than once, in which case its slot list is left
unchanged — and every class with a parent or mixins keeps its slot list
unchanged.  `convert` with an identifier is exactly `convert` without
one followed by this per-class step. -/
theorem c7_identifier_injection_amended (idn : String) :
    (∀ c : ClassDef, isRootClass c = true →
      idn ∈ (injectClass idn c).slots ∧
      (injectClass idn c).slots.count idn = max 1 (c.slots.count idn)) ∧
    (∀ c : ClassDef, isRootClass c = false →
      (injectClass idn c).slots = c.slots) ∧
    (∀ eng g nss n0 dp0 sch,
      convert eng g nss n0 dp0 (some idn) = some sch →
      alFind sch.slots idn = some (idSlot idn) ∧
      ∃ sch0, convert eng g nss n0 dp0 none = some sch0 ∧
        sch.classes = sch0.classes.map
          (fun kv => (kv.1, injectClass idn kv.2)) ∧
        sch.slots = alSet sch0.slots idn (idSlot idn)) := by
  refine ⟨?_, ?_, ?_⟩
  · intro c hroot
    by_cases hc : c.slots.contains idn
    · have hmem : idn ∈ c.slots := (containsIffMem _ _).mp hc
      have hcount : 1 ≤ c.slots.count idn := List.count_pos_iff.mpr hmem
      have hsame : injectClass idn c = c := by
        unfold injectClass
        rw [hroot, hc]
        simp
      rw [hsame]
      exact ⟨hmem, (Nat.max_eq_right hcount).symm⟩
    · have hnmem : idn ∉ c.slots := fun hmem =>
        hc ((containsIffMem _ _).mpr hmem)
      have hcb : c.slots.contains idn = false := by
        cases hcb2 : c.slots.contains idn
        · rfl
        · exact absurd hcb2 hc
      have happ : injectClass idn c
          = { c with slots := c.slots ++ [idn] } := by
        unfold injectClass
        rw [hroot, hcb]
        simp
      rw [happ]
      constructor
      · simp
      · show (c.slots ++ [idn]).count idn = max 1 (c.slots.count idn)
        rw [List.count_append, List.count_eq_zero.mpr hnmem]
        simp
  · intro c hroot
    unfold injectClass
    rw [hroot]
    simp
  · intro eng g nss n0 dp0 sch hconv
    obtain ⟨slots, cs, classes, hb, hc, hsch⟩ :=
      convert_inv eng g nss n0 dp0 (some idn) sch hconv
    subst hsch
    refine ⟨?_, ?_⟩
    · show alFind (alSet slots idn (idSlot idn)) idn = some (idSlot idn)
      rw [alFind_alSet]
      simp
    · refine ⟨⟨(resolveNames n0 dp0).1, (resolveNames n0 dp0).2, slots,
        classes⟩, ?_, rfl, rfl⟩
      unfold convert
      simp only [hb, hc]
      rfl

/-- Witness for C7 (amended) on concrete classes and the duplicate-slot
run. -/
theorem c7_amended_witness :
    "i" ∈ (injectClass "i" rootWitClass).slots ∧
    (injectClass "i" nonRootWitClass).slots = nonRootWitClass.slots ∧
    alFind
      (⟨"example", none,
        [("x", ⟨"x", [("identifier", RVal.boolVal true),
          ("range", RVal.scalar "uriorcurie")], none⟩)],
        [("Person", ⟨"Person", [], ["x", "x"],
          some "<http://example.org/Person>"⟩)]⟩ : Schema).slots "x"
      = some (idSlot "x") :=
  ⟨((c7_identifier_injection_amended "i").1 rootWitClass (by decide)).1,
   (c7_identifier_injection_amended "i").2.1 nonRootWitClass (by decide),
   ((c7_identifier_injection_amended "x").2.2 slotEngine dupSlotGraph []
     none none
     (⟨"example", none,
       [("x", ⟨"x", [("identifier", RVal.boolVal true),
         ("range", RVal.scalar "uriorcurie")], none⟩)],
       [("Person", ⟨"Person", [], ["x", "x"],
         some "<http://example.org/Person>"⟩)]⟩ : Schema) rfl).1⟩

/- ----------------------------------------------------------------
   C9 — canonical-URI round trips: string lemmas
   ---------------------------------------------------------------- -/

theorem strHas_false_iff (s : String) (c : Char) :
    strHas s c = false ↔ c ∉ s.data := by
  constructor
  · intro h hmem
    have h2 := (containsIffMem s.data c).mpr hmem
    have h3 : strHas s c = true := h2
    rw [h] at h3
    cases h3
  · intro h
    cases hc : s.data.contains c
    · exact hc
    · exact absurd ((containsIffMem s.data c).mp hc) h

theorem string_data_append (a b : String) :
    (a ++ b).data = a.data ++ b.data := rfl

theorem takeWhile_append_sat {α : Type} (p : α → Bool) :
    ∀ (l1 : List α) (a : α) (l2 : List α), (∀ x ∈ l1, p x = true) →
      p a = false → (l1 ++ a :: l2).takeWhile p = l1 := by
  intro l1
  induction l1 with
  | nil =>
    intro a l2 _ ha
    simp [List.takeWhile_cons, ha]
  | cons x xs ih =>
    intro a l2 h1 ha
    have hx : p x = true := h1 x (List.mem_cons_self _ _)
    simp only [List.cons_append, List.takeWhile_cons, hx, if_true]
    rw [ih a l2 (fun y hy => h1 y (List.mem_cons_of_mem _ hy)) ha]

theorem takeWhile_append_mem {α : Type} (p : α → Bool) :
    ∀ (l1 l2 : List α), (∃ a, a ∈ l1 ∧ p a = false) →
      (l1 ++ l2).takeWhile p = l1.takeWhile p := by
  intro l1
  induction l1 with
  | nil =>
    intro l2 h
    obtain ⟨a, ha, _⟩ := h
    simp at ha
  | cons x xs ih =>
    intro l2 h
    by_cases hx : p x = true
    · simp only [List.cons_append, List.takeWhile_cons, hx, if_true]
      rw [ih l2 ?_]
      obtain ⟨a, ha, hpa⟩ := h
      rcases List.mem_cons.mp ha with h2 | h2
      · subst h2
        rw [hx] at hpa
        cases hpa
      · exact ⟨a, h2, hpa⟩
    · have hx2 : p x = false := by
        cases hpx : p x
        · rfl
        · exact absurd hpx hx
      simp [List.takeWhile_cons, hx2]

theorem splitIri_asName (u ns loc : String)
    (h : splitIri u = some (ns, loc)) : asName u = loc := by
  unfold splitIri at h
  by_cases h1 : strHas u '#' = true
  · rw [if_pos h1] at h
    simp only [Option.some.injEq, Prod.mk.injEq] at h
    unfold asName
    rw [if_pos h1]
    exact h.2
  · rw [if_neg h1] at h
    by_cases h2 : strHas u '/' = true
    · rw [if_pos h2] at h
      simp only [Option.some.injEq, Prod.mk.injEq] at h
      unfold asName
      rw [if_neg h1, if_pos h2]
      exact h.2
    · rw [if_neg h2] at h
      exact absurd h (by simp)

theorem asName_curie (pfx loc : String)
    (h1 : strHas pfx '#' = false) (h2 : strHas pfx '/' = false)
    (h3 : strHas loc '#' = false) (h4 : strHas loc '/' = false)
    (h5 : strHas loc ':' = false) :
    asName (pfx ++ ":" ++ loc) = loc := by
  have hdata : (pfx ++ ":" ++ loc).data
      = pfx.data ++ ':' :: loc.data := by
    rw [string_data_append, string_data_append]
    simp
  have hmemNo : ∀ c : Char, c ≠ ':' → c ∉ pfx.data → c ∉ loc.data →
      strHas (pfx ++ ":" ++ loc) c = false := by
    intro c hcol hp hl
    rw [strHas_false_iff, hdata]
    intro hmem
    rcases List.mem_append.mp hmem with hmem | hmem
    · exact hp hmem
    · rcases List.mem_cons.mp hmem with hmem | hmem
      · exact hcol hmem
      · exact hl hmem
  have hno1 : strHas (pfx ++ ":" ++ loc) '#' = false :=
    hmemNo '#' (by decide) ((strHas_false_iff _ _).mp h1)
      ((strHas_false_iff _ _).mp h3)
  have hno2 : strHas (pfx ++ ":" ++ loc) '/' = false :=
    hmemNo '/' (by decide) ((strHas_false_iff _ _).mp h2)
      ((strHas_false_iff _ _).mp h4)
  have hyes : strHas (pfx ++ ":" ++ loc) ':' = true := by
    have hm : (':' : Char) ∈ (pfx ++ ":" ++ loc).data := by
      rw [hdata]
      exact List.mem_append_right _ (List.mem_cons_self _ _)
    exact (containsIffMem _ _).mpr hm
  unfold asName
  rw [if_neg (by rw [hno1]; exact Bool.false_ne_true),
      if_neg (by rw [hno2]; exact Bool.false_ne_true),
      if_pos hyes]
  unfold afterLast
  rw [hdata]
  have hrev : (pfx.data ++ ':' :: loc.data).reverse
      = loc.data.reverse ++ ':' :: pfx.data.reverse := by
    simp
  rw [hrev]
  rw [takeWhile_append_sat _ loc.data.reverse ':' pfx.data.reverse ?_ ?_]
  · rw [List.reverse_reverse]
  · intro x hx
    have hxl : x ∈ loc.data := List.mem_reverse.mp hx
    have hne : x ≠ ':' := by
      intro hh
      exact ((strHas_false_iff _ _).mp h5) (hh ▸ hxl)
    simpa using hne
  · simp

theorem afterLast_angle (c : Char) (u : String) (hgt : ('>' != c) = true)
    (hmem : c ∈ u.data) :
    afterLast c ("<" ++ u ++ ">") = afterLast c u ++ ">" := by
  unfold afterLast
  have hdata : ("<" ++ u ++ ">").data = '<' :: (u.data ++ ['>']) := by
    rw [string_data_append, string_data_append]
    simp
  rw [hdata]
  have h1 : ('<' :: (u.data ++ ['>'])).reverse
      = '>' :: (u.data.reverse ++ ['<']) := by
    simp
  rw [h1]
  have h2 : List.takeWhile (fun x => x != c)
      ('>' :: (u.data.reverse ++ ['<']))
      = '>' :: List.takeWhile (fun x => x != c) u.data.reverse := by
    simp only [List.takeWhile_cons, hgt, if_true]
    rw [takeWhile_append_mem _ u.data.reverse ['<']
      ⟨c, List.mem_reverse.mpr hmem, by simp⟩]
  rw [h2]
  rw [List.reverse_cons]
  rfl

theorem asName_angle (u ns loc : String)
    (hsplit : splitIri u = some (ns, loc)) :
    asName ("<" ++ u ++ ">") = asName u ++ ">" := by
  have hdata : ("<" ++ u ++ ">").data = '<' :: (u.data ++ ['>']) := by
    rw [string_data_append, string_data_append]
    simp
  unfold splitIri at hsplit
  by_cases hH : strHas u '#' = true
  · have hmem : ('#' : Char) ∈ u.data := (containsIffMem _ _).mp hH
    have hyes : strHas ("<" ++ u ++ ">") '#' = true := by
      apply (containsIffMem _ _).mpr
      rw [hdata]
      exact List.mem_cons_of_mem _ (List.mem_append_left _ hmem)
    unfold asName
    rw [if_pos hyes, if_pos hH]
    exact afterLast_angle '#' u (by decide) hmem
  · rw [if_neg hH] at hsplit
    by_cases hS : strHas u '/' = true
    · have hmem : ('/' : Char) ∈ u.data := (containsIffMem _ _).mp hS
      have hHf : strHas u '#' = false := by
        cases hc : strHas u '#'
        · rfl
        · exact absurd hc hH
      have hno : strHas ("<" ++ u ++ ">") '#' = false := by
        rw [strHas_false_iff, hdata]
        intro hm
        rcases List.mem_cons.mp hm with hm | hm
        · cases hm
        · rcases List.mem_append.mp hm with hm | hm
          · exact ((strHas_false_iff u '#').mp hHf) hm
          · simp at hm
      have hyes : strHas ("<" ++ u ++ ">") '/' = true := by
        apply (containsIffMem _ _).mpr
        rw [hdata]
        exact List.mem_cons_of_mem _ (List.mem_append_left _ hmem)
      unfold asName
      rw [if_neg (by rw [hno]; exact Bool.false_ne_true), if_pos hyes,
          if_neg hH, if_pos hS]
      exact afterLast_angle '/' u (by decide) hmem
    · rw [if_neg hS] at hsplit
      exact absurd hsplit (by simp)

/- ----------------------------------------------------------------
   C9 — canonical-URI round trips: provenance and the claim
   ---------------------------------------------------------------- -/

theorem alSet_forall {α : Type} (P : α → Prop) :
    ∀ (m : List (String × α)) (k : String) (v : α),
      (∀ kv ∈ m, P kv.2) → P v → ∀ kv ∈ alSet m k v, P kv.2 := by
  intro m
  induction m with
  | nil =>
    intro k v _ hv kv hkv
    simp [alSet] at hkv
    rw [hkv]
    exact hv
  | cons kv2 rest ih =>
    intro k v hm hv kv hkv
    obtain ⟨k2, v2⟩ := kv2
    unfold alSet at hkv
    by_cases h2 : k2 = k
    · rw [if_pos h2] at hkv
      rcases List.mem_cons.mp hkv with h3 | h3
      · rw [h3]
        exact hv
      · exact hm kv (List.mem_cons_of_mem _ h3)
    · rw [if_neg h2] at hkv
      rcases List.mem_cons.mp hkv with h3 | h3
      · rw [h3]
        exact hm (k2, v2) (List.mem_cons_self _ _)
      · exact ih k v (fun kv3 hkv3 => hm kv3 (List.mem_cons_of_mem _ hkv3))
          hv kv h3

theorem buildSlots_prov (eng : Engine) (g : Graph)
    (nss : List (String × String)) :
    ∀ props slots cs out,
      buildSlots eng g nss props slots cs = some out →
      (∀ kv ∈ slots, kv.2.slotUri = none ∨ ∃ p, kv.2.name = asName p ∧
        kv.2.slotUri = some (n3Render nss (.uri p))) →
      ∀ kv ∈ out.1, kv.2.slotUri = none ∨ ∃ p, kv.2.name = asName p ∧
        kv.2.slotUri = some (n3Render nss (.uri p)) := by
  intro props
  induction props with
  | nil =>
    intro slots cs out h hs
    simp only [buildSlots, Option.some.injEq] at h
    rw [← h]
    exact hs
  | cons p rest ih =>
    intro slots cs out h hs
    rw [buildSlots] at h
    split at h
    · exact absurd h (by simp)
    · split at h
      · exact absurd h (by simp)
      · split at h
        · exact absurd h (by simp)
        · exact ih _ _ _ h
            (alSet_forall
              (fun sd => sd.slotUri = none ∨ ∃ p2, sd.name = asName p2 ∧
                sd.slotUri = some (n3Render nss (.uri p2)))
              slots (asName p) _ hs (Or.inr ⟨p, rfl, rfl⟩))

theorem buildClasses_prov (eng : Engine) (g : Graph)
    (nss : List (String × String)) (cs : ClsSlots) :
    ∀ nodes acc out,
      buildClasses eng g nss cs nodes acc = some out →
      (∀ kv ∈ acc, ∃ nd, kv.2.name = asName (nodeStr nd) ∧
        kv.2.classUri = some (n3Render nss nd)) →
      ∀ kv ∈ out, ∃ nd, kv.2.name = asName (nodeStr nd) ∧
        kv.2.classUri = some (n3Render nss nd) := by
  intro nodes
  induction nodes with
  | nil =>
    intro acc out h hs
    simp only [buildClasses, Option.some.injEq] at h
    rw [← h]
    exact hs
  | cons s rest ih =>
    intro acc out h hs
    rw [buildClasses] at h
    split at h
    · exact absurd h (by simp)
    · exact ih _ _ h
        (alSet_forall
          (fun cd => ∃ nd, cd.name = asName (nodeStr nd) ∧
            cd.classUri = some (n3Render nss nd))
          acc (asName (nodeStr s)) _ hs ⟨s, rfl, rfl⟩)

theorem injectClass_name_uri (idn : String) (c : ClassDef) :
    (injectClass idn c).name = c.name ∧
    (injectClass idn c).classUri = c.classUri := by
  unfold injectClass
  by_cases h : (isRootClass c && !c.slots.contains idn) = true
  · rw [if_pos h]
    exact ⟨rfl, rfl⟩
  · rw [if_neg h]
    exact ⟨rfl, rfl⟩

/-- C9 (counterexample): a class IRI under a namespace that is bound to
no declared prefix gets the angle-bracket rendering stored as its
canonical URI, and passing that stored string back through the resolver
yields `A>`, not the class name `A`. -/
theorem c9_counterexample :
    (convert defaultEngine unprefixedClassGraph [] none none none).map
      (fun sch => sch.classes.map
        (fun kv => (kv.2.name, kv.2.classUri.map asName)))
      = some [("A", some "A>")] ∧ ("A>" : String) ≠ "A" :=
  ⟨rfl, by decide⟩

/-- C9 (amended): every definition's stored canonical URI is the compact
rendering of its originating node (the synthesized identifier slot has
none); the round-trip through the resolver reproduces the definition's
name exactly when the URI is rendered in `prefix:local` form with
separator-free prefix and local parts, while the angle-bracket fallback
rendering resolves to the name with a trailing `>` appended. -/
theorem c9_roundtrip_amended (eng : Engine) (g : Graph)
    (nss : List (String × String)) (n0 dp0 idn? : Option String)
    (sch : Schema) (hconv : convert eng g nss n0 dp0 idn? = some sch) :
    (∀ kv ∈ sch.classes, ∃ nd, kv.2.name = asName (nodeStr nd) ∧
      kv.2.classUri = some (n3Render nss nd)) ∧
    (∀ kv ∈ sch.slots, kv.2.slotUri = none ∨ ∃ p, kv.2.name = asName p ∧
      kv.2.slotUri = some (n3Render nss (.uri p))) ∧
    (∀ u ns loc pfx, splitIri u = some (ns, loc) →
      findPfx nss ns = some pfx →
      strHas pfx '#' = false → strHas pfx '/' = false →
      strHas loc '#' = false → strHas loc '/' = false →
      strHas loc ':' = false →
      asName (n3Render nss (.uri u)) = asName u) ∧
    (∀ u ns loc, splitIri u = some (ns, loc) → findPfx nss ns = none →
      asName (n3Render nss (.uri u)) = asName u ++ ">") := by
  obtain ⟨slots, cs, classes, hb, hc, hsch⟩ :=
    convert_inv eng g nss n0 dp0 idn? sch hconv
  have hslots : ∀ kv ∈ slots, kv.2.slotUri = none ∨
      ∃ p, kv.2.name = asName p ∧
        kv.2.slotUri = some (n3Render nss (.uri p)) :=
    buildSlots_prov eng g nss (discoverProps eng g) [] [] (slots, cs) hb
      (by intro kv hkv; cases hkv)
  have hclasses : ∀ kv ∈ classes, ∃ nd,
      kv.2.name = asName (nodeStr nd) ∧
      kv.2.classUri = some (n3Render nss nd) :=
    buildClasses_prov eng g nss cs (discoverClasses eng g) [] classes hc
      (by intro kv hkv; cases hkv)
  subst hsch
  refine ⟨?_, ?_, ?_, ?_⟩
  · show ∀ kv ∈ (injectIdentifier idn? slots classes).2, _
    cases idn? with
    | none => exact hclasses
    | some idn =>
      intro kv hkv
      simp only [injectIdentifier, List.mem_map] at hkv
      obtain ⟨kv0, hkv0, hkveq⟩ := hkv
      obtain ⟨nd, hname, huri⟩ := hclasses kv0 hkv0
      refine ⟨nd, ?_, ?_⟩
      · rw [← hkveq]
        exact ((injectClass_name_uri idn kv0.2).1).trans hname
      · rw [← hkveq]
        exact ((injectClass_name_uri idn kv0.2).2).trans huri
  · show ∀ kv ∈ (injectIdentifier idn? slots classes).1, _
    cases idn? with
    | none => exact hslots
    | some idn =>
      exact alSet_forall
        (fun sd => sd.slotUri = none ∨ ∃ p, sd.name = asName p ∧
          sd.slotUri = some (n3Render nss (.uri p)))
        slots idn (idSlot idn) hslots (Or.inl rfl)
  · intro u ns loc pfx hsplit hpfx hp1 hp2 hl1 hl2 hl3
    have hrender : n3Render nss (.uri u) = pfx ++ ":" ++ loc := by
      unfold n3Render
      simp only [hsplit, hpfx]
    rw [hrender, asName_curie pfx loc hp1 hp2 hl1 hl2 hl3,
        splitIri_asName u ns loc hsplit]
  · intro u ns loc hsplit hpfx
    have hrender : n3Render nss (.uri u) = "<" ++ u ++ ">" := by
      unfold n3Render
      simp only [hsplit, hpfx]
    rw [hrender]
    exact asName_angle u ns loc hsplit

/-- Witness for C9 (amended): with the namespace `http://x.example/`
bound to prefix `ex`, the stored canonical URI `ex:A` round-trips to the
class name `A`. -/
theorem c9_witness :
    (convert defaultEngine unprefixedClassGraph
      [("ex", "http://x.example/")] none none none).map
      (fun sch => sch.classes.map (fun kv => (kv.2.name, kv.2.classUri)))
      = some [("A", some "ex:A")] ∧
    asName (n3Render [("ex", "http://x.example/")]
      (.uri "http://x.example/A")) = asName "http://x.example/A" ∧
    asName "http://x.example/A" = "A" :=
  ⟨rfl,
   (c9_roundtrip_amended defaultEngine unprefixedClassGraph
     [("ex", "http://x.example/")] none none none
     (⟨"example", none, [],
       [("A", ⟨"A", [], [], some "ex:A"⟩)]⟩ : Schema) rfl).2.2.1
     "http://x.example/A" "http://x.example/" "A" "ex" (by decide)
     (by decide) (by decide) (by decide) (by decide) (by decide)
     (by decide),
   by decide⟩

end SchemaAutomator
